import Mathlib

/-!
Verification of the url2markdown conversion pipeline
(src/services/url_reader.py) against its specification.

The Python module is shallowly embedded: pure helpers become Lean
functions on String / List Char, the stateful network- and
library-dependent steps (httpx, BeautifulSoup, markdownify, the
url2markdown downloader, the splitbee structured-content API) are
modelled as an explicit oracle record, and the orchestrator
convert_url_to_markdown becomes a pure function of that oracle.
Python exceptions become Except values; functions that can decline
return Option.
-/

namespace UrlReader

/-! ### Python string primitives

Character-level models of the Python str operations the module uses.
Python regex \s and str.strip work on the Unicode whitespace
property; the set below lists those codepoints. -/

def pyIsSpace (c : Char) : Bool :=
  let n := c.toNat
  (9 ≤ n && n ≤ 13) || n = 32 || (28 ≤ n && n ≤ 31) || n = 0x85 || n = 0xA0 ||
  n = 0x1680 || (0x2000 ≤ n && n ≤ 0x200A) || n = 0x2028 || n = 0x2029 ||
  n = 0x202F || n = 0x205F || n = 0x3000

/-- Python str.strip with no argument: drop whitespace from both ends. -/
def pyStrip (s : String) : String :=
  ⟨((s.data.dropWhile pyIsSpace).reverse.dropWhile pyIsSpace).reverse⟩

/-- Python str.rstrip with no argument: drop trailing whitespace. -/
def pyRstrip (s : String) : String :=
  ⟨(s.data.reverse.dropWhile pyIsSpace).reverse⟩

/-- Python substring membership, needle in hay. -/
def listContainsSub (needle : List Char) : List Char → Bool
  | [] => needle.isEmpty
  | c :: t => needle.isPrefixOf (c :: t) || listContainsSub needle t

/-- Python substring membership on str. -/
def pyIn (needle hay : String) : Bool :=
  listContainsSub needle.data hay.data

/-- Python str.lower restricted to ASCII.  All comparisons in the
module are against ASCII host names, for which ASCII lowering agrees
with the full Unicode lowering. -/
def pyLower (s : String) : String :=
  ⟨s.data.map Char.toLower⟩

/-! ### _word_count (url_reader.py lines 247-251)

The source computes
  tokens = [token for token in re.split(r"\s+", markdown) if token]
Splitting on runs of whitespace and dropping empty tokens yields
exactly the result of splitting at every single whitespace character
and dropping empty tokens, which is the form used here
(List.splitOnP splits at each separator element). -/

def wordTokens (markdown : String) : List (List Char) :=
  (markdown.data.splitOnP pyIsSpace).filter (· ≠ [])

def _word_count (markdown : String) : Nat :=
  if markdown = "" then 0 else (wordTokens markdown).length

/-! ### Model of Python / JSON values

The structured-content API returns a JSON block map and the result
metadata is a Python dict with heterogeneous values; both are
modelled by PyVal.  Dicts are insertion-ordered association lists
with unique keys, exactly like Python dicts. -/

inductive PyVal where
  | str : String → PyVal
  | num : Int → PyVal
  | bool : Bool → PyVal
  | list : List PyVal → PyVal
  | dict : List (String × PyVal) → PyVal
  | none : PyVal

/-- Python truthiness for the values above. -/
def pyTruthy : PyVal → Bool
  | .str s => s ≠ ""
  | .num n => n ≠ 0
  | .bool b => b
  | .list l => !l.isEmpty
  | .dict l => !l.isEmpty
  | .none => false

/-- Association-list lookup, the model of dict.get with default None. -/
def dictGet (kvs : List (String × PyVal)) (k : String) : PyVal :=
  match kvs.lookup k with
  | some v => v
  | Option.none => .none

/-- dict.get with an explicit default. -/
def dictGetD (kvs : List (String × PyVal)) (k : String) (d : PyVal) : PyVal :=
  match kvs.lookup k with
  | some v => v
  | Option.none => d

/-- Python dict assignment d[k] = v (and the merge form lbrace **d, k: v rbrace):
overwrite in place when the key is present, append otherwise. -/
def dictSet (kvs : List (String × PyVal)) (k : String) (v : PyVal) :
    List (String × PyVal) :=
  match kvs with
  | [] => [(k, v)]
  | (k2, v2) :: t => if k2 = k then (k, v) :: t else (k2, v2) :: dictSet t k v

/-- block.get(key) on a PyVal that the source expects to be a dict;
a non-dict value yields None (the source would raise there, which no
modelled input reaches). -/
def pvGet (b : PyVal) (k : String) : PyVal :=
  match b with
  | .dict kvs => dictGet kvs k
  | _ => .none

/-- block.get(key, default) on a dict-shaped PyVal. -/
def pvGetD (b : PyVal) (k : String) (d : PyVal) : PyVal :=
  match b with
  | .dict kvs => dictGetD kvs k d
  | _ => d

/-- Python indexing v[0] on a list-shaped value (the source only
indexes values it has just guarded to be truthy lists). -/
def pvIdx0 : PyVal → PyVal
  | .list (x :: _) => x
  | _ => .none

/-! ### MarkdownResult (url_reader.py lines 82-94) -/

structure MarkdownResult where
  source_url : String
  final_url : String
  title : Option String
  markdown : String
  word_count : Nat
  metadata : List (String × PyVal)

/-! ### urllib.parse model

The module calls urlparse, urlunparse, parse_qsl and urlencode from
the Python standard library (CPython 3.11 urllib/parse.py); those are
embedded below.  urlsplit first removes the WHATWG-unsafe bytes tab,
CR and LF, takes a scheme only when the text before the first colon
is a nonempty run of scheme characters starting with an ASCII letter,
takes a netloc only after a leading double slash and up to the first
slash, question mark or hash, then splits the fragment at the first
hash and the query at the first question mark.  The params component
is kept inside the path here: urlparse only separates it from the
last path segment and urlunparse joins it back with a semicolon, an
exact round trip, and the module never reads it.  The ValueError
raised by CPython for netlocs with unbalanced square brackets and the
NFKC netloc check are not modelled. -/

def unsafeUrlByte (c : Char) : Bool := c = '\t' || c = '\r' || c = '\n'

def schemeChar (c : Char) : Bool :=
  c.isAlpha || c.isDigit || c = '+' || c = '-' || c = '.'

def splitScheme (l : List Char) : List Char × List Char :=
  let pre := l.takeWhile (· ≠ ':')
  let post := l.dropWhile (· ≠ ':')
  match post with
  | [] => ([], l)
  | _ :: rest =>
    match pre with
    | [] => ([], l)
    | c0 :: _ => if c0.isAlpha && pre.all schemeChar then (pre, rest) else ([], l)

def netlocDelim (c : Char) : Bool := c = '/' || c = '?' || c = '#'

def splitNetloc : List Char → List Char × List Char
  | '/' :: '/' :: rest =>
    (rest.takeWhile (fun c => !netlocDelim c), rest.dropWhile (fun c => !netlocDelim c))
  | l => ([], l)

/-- url.split(sep, 1) preceded by the membership test: the second
component is empty when sep does not occur. -/
def splitAtFirst (sep : Char) (l : List Char) : List Char × List Char :=
  (l.takeWhile (· ≠ sep), (l.dropWhile (· ≠ sep)).tail)

structure PyUrl where
  scheme : List Char
  netloc : List Char
  pathParams : List Char
  query : List Char
  fragment : List Char

def pyUrlparse (url : String) : PyUrl :=
  let u0 := url.data.filter (fun c => !unsafeUrlByte c)
  let sr := splitScheme u0
  let nr := splitNetloc sr.2
  let fr := splitAtFirst '#' nr.2
  let qr := splitAtFirst '?' fr.1
  ⟨sr.1.map Char.toLower, nr.1, qr.1, qr.2, fr.2⟩

def pyNetloc (url : String) : String := ⟨(pyUrlparse url).netloc⟩

/-- The uses_netloc scheme list of urllib.parse. -/
def usesNetloc : List String :=
  ["", "ftp", "http", "gopher", "nntp", "telnet", "imap", "wais", "file",
   "mms", "https", "shttp", "snews", "prospero", "rtsp", "rtspu", "rsync",
   "svn", "svn+ssh", "sftp", "nfs", "git", "git+ssh", "ws", "wss"]

/-- urlunsplit of CPython 3.11; urlunparse reduces to it because the
params stayed inside the path component. -/
def pyUrlunparse (p : PyUrl) : List Char :=
  let url := p.pathParams
  let url :=
    if p.netloc ≠ [] ∨
        (p.scheme ≠ [] ∧ usesNetloc.contains ⟨p.scheme⟩ ∧ url.take 2 ≠ ['/', '/'])
    then
      let url2 := if url ≠ [] ∧ url.take 1 ≠ ['/'] then '/' :: url else url
      '/' :: '/' :: (p.netloc ++ url2)
    else url
  let url := if p.scheme ≠ [] then p.scheme ++ ':' :: url else url
  let url := if p.query ≠ [] then url ++ '?' :: p.query else url
  if p.fragment ≠ [] then url ++ '#' :: p.fragment else url

/-! UTF-8 and percent coding, for quote_plus / unquote. -/

def utf8EncodeChar (c : Char) : List Nat :=
  let n := c.toNat
  if n < 0x80 then [n]
  else if n < 0x800 then [0xC0 + n / 64, 0x80 + n % 64]
  else if n < 0x10000 then
    [0xE0 + n / 4096, 0x80 + (n / 64) % 64, 0x80 + n % 64]
  else
    [0xF0 + n / 262144, 0x80 + (n / 4096) % 64, 0x80 + (n / 64) % 64,
     0x80 + n % 64]

def utf8Cont (b : Nat) : Bool := 0x80 ≤ b && b ≤ 0xBF

def replacementChar : Char := Char.ofNat 0xFFFD

/-- RFC 3629 decoding with replacement of invalid bytes, the model of
bytes.decode(utf-8, errors=replace).  No theorem below depends on the
treatment of invalid sequences.  The fuel argument only makes the
recursion structural; every step consumes at least one byte, so fuel
equal to the byte count never runs out. -/
def utf8DecodeF : Nat → List Nat → List Char
  | 0, _ => []
  | _ + 1, [] => []
  | fuel + 1, b :: rest =>
    if b ≤ 0x7F then Char.ofNat b :: utf8DecodeF fuel rest
    else if 0xC2 ≤ b && b ≤ 0xDF then
      match rest with
      | b2 :: r2 =>
        if utf8Cont b2 then
          Char.ofNat ((b - 0xC0) * 64 + (b2 - 0x80)) :: utf8DecodeF fuel r2
        else replacementChar :: utf8DecodeF fuel rest
      | [] => [replacementChar]
    else if 0xE0 ≤ b && b ≤ 0xEF then
      match rest with
      | b2 :: b3 :: r3 =>
        if utf8Cont b2 && utf8Cont b3 &&
            !(b = 0xE0 && b2 < 0xA0) && !(b = 0xED && b2 > 0x9F) then
          Char.ofNat ((b - 0xE0) * 4096 + (b2 - 0x80) * 64 + (b3 - 0x80)) ::
            utf8DecodeF fuel r3
        else replacementChar :: utf8DecodeF fuel rest
      | _ => replacementChar :: utf8DecodeF fuel rest
    else if 0xF0 ≤ b && b ≤ 0xF4 then
      match rest with
      | b2 :: b3 :: b4 :: r4 =>
        if utf8Cont b2 && utf8Cont b3 && utf8Cont b4 &&
            !(b = 0xF0 && b2 < 0x90) && !(b = 0xF4 && b2 > 0x8F) then
          Char.ofNat ((b - 0xF0) * 262144 + (b2 - 0x80) * 4096 +
              (b3 - 0x80) * 64 + (b4 - 0x80)) :: utf8DecodeF fuel r4
        else replacementChar :: utf8DecodeF fuel rest
      | _ => replacementChar :: utf8DecodeF fuel rest
    else replacementChar :: utf8DecodeF fuel rest

def utf8Decode (l : List Nat) : List Char := utf8DecodeF l.length l

/-- The _ALWAYS_SAFE set of urllib.parse. -/
def alwaysSafe (c : Char) : Bool :=
  c.isAlpha || c.isDigit || c = '_' || c = '.' || c = '-' || c = '~'

def hexDigitUpper (n : Nat) : Char :=
  if n < 10 then Char.ofNat (48 + n) else Char.ofNat (55 + n)

def pctEncodeByte (b : Nat) : List Char :=
  ['%', hexDigitUpper (b / 16), hexDigitUpper (b % 16)]

/-- quote_plus with the default empty safe string: safe ASCII chars
pass through, space becomes plus, every other char is the percent
coding of its UTF-8 bytes with uppercase hex. -/
def pyQuotePlus (s : String) : List Char :=
  s.data.flatMap (fun c =>
    if alwaysSafe c then [c]
    else if c = ' ' then ['+']
    else (utf8EncodeChar c).flatMap pctEncodeByte)

/-- urlencode with the default quote_plus quoting. -/
def pyUrlencode (items : List (String × String)) : List Char :=
  List.intercalate ['&'] (items.map (fun kv => pyQuotePlus kv.1 ++ '=' :: pyQuotePlus kv.2))

def isHexDigitPy (c : Char) : Bool :=
  c.isDigit || ('a' ≤ c && c ≤ 'f') || ('A' ≤ c && c ≤ 'F')

def hexVal (c : Char) : Nat :=
  if c.isDigit then c.toNat - 48
  else if 'a' ≤ c && c ≤ 'f' then c.toNat - 87
  else c.toNat - 55

/-- unquote: maximal runs of valid percent pairs are decoded together
as one UTF-8 byte string (the accumulator), all other characters pass
through; a percent sign not followed by two hex digits is literal. -/
def unquoteAux : List Char → List Nat → List Char
  | [], acc => utf8Decode acc.reverse
  | '%' :: h1 :: h2 :: rest, acc =>
    if isHexDigitPy h1 && isHexDigitPy h2 then
      unquoteAux rest ((hexVal h1 * 16 + hexVal h2) :: acc)
    else utf8Decode acc.reverse ++ '%' :: unquoteAux (h1 :: h2 :: rest) []
  | c :: rest, acc => utf8Decode acc.reverse ++ c :: unquoteAux rest []

def pyUnquotePlus (s : List Char) : List Char :=
  unquoteAux (s.map (fun c => if c = '+' then ' ' else c)) []

/-- parse_qsl with keep_blank_values=True and the default separator:
split on each ampersand, skip empty fields, split each field at its
first equals sign (missing value behaves as empty), and unquote-plus
names and values. -/
def parseQsl (qs : List Char) : List (String × String) :=
  if qs = [] then []
  else
    (qs.splitOnP (· = '&')).filterMap (fun nameValue =>
      if nameValue = [] then Option.none
      else
        let name := nameValue.takeWhile (· ≠ '=')
        let value := (nameValue.dropWhile (· ≠ '=')).tail
        some (⟨pyUnquotePlus name⟩, ⟨pyUnquotePlus value⟩))

/-! ### Regex models (url_reader.py lines 65-66)

GOOGLE_DOCS_RE is the literal https://docs.google.com/document/d/
followed by a nonempty greedy run of [A-Za-z0-9_-]; the search finds
the leftmost position admitting a match.  NOTION_PAGE_ID_RE is 32
consecutive case-insensitive hex digits, leftmost match. -/

def docsLit : List Char := "https://docs.google.com/document/d/".data

def docsIdChar (c : Char) : Bool :=
  c.isAlpha || c.isDigit || c = '_' || c = '-'

def docsMatchAt (l : List Char) : Option (List Char) :=
  if docsLit.isPrefixOf l then
    let run := (l.drop docsLit.length).takeWhile docsIdChar
    if run ≠ [] then some run else Option.none
  else Option.none

/-- Returns the id run of the first match; group(1) of the regex is
docsLit followed by that run. -/
def docsSearch : List Char → Option (List Char)
  | [] => Option.none
  | c :: rest =>
    match docsMatchAt (c :: rest) with
    | some run => some run
    | Option.none => docsSearch rest

def hexCharPy (c : Char) : Bool :=
  c.isDigit || ('a' ≤ c && c ≤ 'f') || ('A' ≤ c && c ≤ 'F')

def hex32Search : List Char → Option (List Char)
  | [] => Option.none
  | c :: rest =>
    let w := (c :: rest).take 32
    if w.length = 32 && w.all hexCharPy then some w else hex32Search rest

/-! ### _extract_notion_page_id (url_reader.py lines 310-316) -/

def _extract_notion_page_id (url : String) : Option String :=
  match hex32Search (url.data.filter (· ≠ '-')) with
  | Option.none => Option.none
  | some raw =>
    some ⟨raw.take 8 ++ '-' :: ((raw.drop 8).take 4) ++ '-' ::
      ((raw.drop 12).take 4) ++ '-' :: ((raw.drop 16).take 4) ++ '-' ::
      raw.drop 20⟩

/-! ### _normalize_special_urls (url_reader.py lines 254-268) -/

def _normalize_special_urls (url : String) : String × List (String × PyVal) :=
  match docsSearch url.data with
  | some run =>
    (⟨docsLit ++ run ++ "/export?format=html".data⟩,
     [("normalizer", .str "google-docs-html-export")])
  | Option.none =>
    let parsed := pyUrlparse url
    if listContainsSub "notion.so".data parsed.netloc &&
        !listContainsSub "pvs=".data parsed.query then
      let newQueryItems := parseQsl parsed.query ++ [("pvs", "4")]
      let normalized := pyUrlunparse { parsed with query := pyUrlencode newQueryItems }
      (⟨normalized⟩, [("normalizer", .str "notion-reader-mode")])
    else (url, [])

/-! ### Escalation policy (url_reader.py lines 67-75, 447-457) -/

def JINA_PROXY_HOSTS : List String :=
  ["notion.so", "www.notion.so", "notion.site", "www.notion.site",
   "docs.google.com"]

def MIN_PROXY_WORD_COUNT : Nat := 10

/-- Python str.endswith as a character-list suffix test. -/
def pyEndsWith (s suffix : String) : Bool :=
  suffix.data.isSuffixOf s.data

def _should_use_jina_proxy (host : String) : Bool :=
  JINA_PROXY_HOSTS.any (fun allowed =>
    host = allowed || pyEndsWith host ("." ++ allowed))

def _needs_proxy_render (result : MarkdownResult) (url : String) : Bool :=
  decide (result.word_count < MIN_PROXY_WORD_COUNT) &&
    _should_use_jina_proxy (pyLower (pyNetloc url))

/-! ### Rich text and Notion block rendering (url_reader.py 319-444) -/

/-- The str content of a PyVal; the source only reads str values
here (a non-str value would be string-formatted by Python). -/
def pvAsStr : PyVal → String
  | .str s => s
  | _ => ""

def pvEqStr (v : PyVal) (s : String) : Bool :=
  match v with
  | .str t => t = s
  | _ => false

/-- One fragment of _rich_text_to_markdown: text = fragment[0], then
each truthy style list with head "a" and a second element wraps the
text as a markdown link. -/
def fragmentText (fragment : PyVal) : String :=
  match fragment with
  | .list (t :: styles) =>
    styles.foldl (fun text style =>
      if !pyTruthy style then text
      else
        match style with
        | .list (.str s0 :: href :: _) =>
          if s0 = "a" then "[" ++ text ++ "](" ++ pvAsStr href ++ ")" else text
        | _ => text) (pvAsStr t)
  | _ => ""

def _rich_text_to_markdown (richText : PyVal) : String :=
  if !pyTruthy richText then ""
  else
    match richText with
    | .list frags =>
      String.join (frags.filterMap (fun fragment =>
        if !pyTruthy fragment then Option.none else some (fragmentText fragment)))
    | _ => ""

/-- The blocks dict of _render_notion_page: entries that are dicts
with a truthy value field, in insertion order. -/
def blocksOf (record_map : List (String × PyVal)) : List (String × PyVal) :=
  record_map.filterMap (fun kv =>
    match kv.2 with
    | .dict entry =>
      let v := dictGet entry "value"
      if pyTruthy v then some (kv.1, v) else Option.none
    | _ => Option.none)

/-- next(block for block in blocks.values() if type == "page") with
default None. -/
def findPageBlock (blocks : List (String × PyVal)) : Option PyVal :=
  (blocks.map Prod.snd).find? (fun b => pvEqStr (pvGet b "type") "page")

/-- for block_id in block_ids or []: iteration of a possibly falsy
list value. -/
def pvListItems : PyVal → List PyVal
  | .list l => l
  | _ => []

/-- The per-kind lines a single live block contributes before its
children (the match ladder of _render_notion_blocks). -/
def blockOwnLines (block : PyVal) (depth : Nat) : List String :=
  let props := pvGetD block "properties" (.dict [])
  let text := _rich_text_to_markdown (pvGet props "title")
  let indent : String := ⟨List.replicate (2 * depth) ' '⟩
  let bt := pvGet block "type"
  if pvEqStr bt "text" || pvEqStr bt "paragraph" then
    if text ≠ "" then [text, ""] else []
  else if pvEqStr bt "header" then ["# " ++ text, ""]
  else if pvEqStr bt "sub_header" then ["## " ++ text, ""]
  else if pvEqStr bt "sub_sub_header" then ["### " ++ text, ""]
  else if pvEqStr bt "bulleted_list" then [indent ++ "- " ++ text]
  else if pvEqStr bt "numbered_list" then [indent ++ "1. " ++ text]
  else if pvEqStr bt "to_do" then
    let checked :=
      pvEqStr (pvIdx0 (pvIdx0 (pvGetD props "checked" (.list [.list [.str "No"]])))) "Yes"
    let mark := if checked then "x" else " "
    [indent ++ "- [" ++ mark ++ "] " ++ text]
  else if pvEqStr bt "quote" then ["> " ++ text, ""]
  else if pvEqStr bt "code" then
    let language := pvAsStr (pvIdx0 (pvIdx0 (pvGetD props "language" (.list [.list [.str ""]]))))
    ["```" ++ language, text, "```", ""]
  else if pvEqStr bt "callout" then
    let icon := pvAsStr (pvIdx0 (pvIdx0 (pvGetD props "icon" (.list [.list [.str "💡"]]))))
    ["> " ++ icon ++ " " ++ text, ""]
  else if pvEqStr bt "divider" then ["---", ""]
  else if pvEqStr bt "image" then
    let source := pvAsStr (pvIdx0 (pvIdx0 (pvGetD props "source" (.list [.list [.str ""]]))))
    if source ≠ "" then ["![image](" ++ source ++ ")", ""] else []
  else if pvEqStr bt "toggle" then [indent ++ "- " ++ text]
  else if text ≠ "" then [text, ""] else []

/-- _render_notion_blocks.  The Python function recurses through the
content id lists of the block dict, which is not structurally
decreasing; the fuel argument makes the recursion total.  One unit of
fuel is spent per nesting level, so any fuel larger than the longest
descent chain reproduces the Python behaviour; on a cyclic block map
the Python function does not terminate and the fuel-out value [] is
never compared against it. -/
def renderNotionBlocksF (fuel : Nat) (blockIds : PyVal)
    (blocks : List (String × PyVal)) (depth : Nat) : List String :=
  match fuel with
  | 0 => []
  | fuel + 1 =>
    (pvListItems blockIds).flatMap (fun bid =>
      match bid with
      | .str id =>
        match blocks.lookup id with
        | Option.none => []
        | some block =>
          if !pyTruthy block || !pyTruthy (pvGet block "alive") then []
          else
            let own := blockOwnLines block depth
            let children := pvGet block "content"
            own ++ (if pyTruthy children then
              renderNotionBlocksF fuel children blocks (depth + 1) else [])
      | _ => [])

/-- _render_notion_page; the fuel blocks.length + 1 dominates every
descent chain of an acyclic block map (chains repeat no key), so this
equals the Python rendering whenever the latter terminates. -/
def _render_notion_page (record_map : List (String × PyVal)) : String :=
  let blocks := blocksOf record_map
  match findPageBlock blocks with
  | Option.none => ""
  | some page_block =>
    let title := _rich_text_to_markdown
      (pvGet (pvGetD page_block "properties" (.dict [])) "title")
    let titleLines := if title ≠ "" then ["# " ++ title, ""] else []
    let lines := titleLines ++
      renderNotionBlocksF (blocks.length + 1)
        (pvGetD page_block "content" (.list [])) blocks 0
    pyStrip (String.intercalate "\n" lines)

def _guess_notion_title (record_map : List (String × PyVal)) : Option String :=
  let vals := record_map.filterMap (fun kv =>
    match kv.2 with
    | .dict entry =>
      let v := dictGet entry "value"
      if pyTruthy v then some v else Option.none
    | _ => Option.none)
  vals.findSome? (fun block =>
    if pvEqStr (pvGet block "type") "page" then
      let text := _rich_text_to_markdown
        (pvGet (pvGetD block "properties" (.dict [])) "title")
      if text ≠ "" then some text else Option.none
    else Option.none)

/-! ### Markdown renderer postprocessing (url_reader.py 228-234)

markdownify itself is an external library and enters through the
oracle; the line cleanup around it is module code and is embedded.
str.splitlines splits at the Unicode line boundaries with CRLF as a
single break and no empty final line. -/

def isLineBreak (c : Char) : Bool :=
  let n := c.toNat
  n = 10 || n = 11 || n = 12 || n = 13 || n = 0x1c || n = 0x1d || n = 0x1e ||
  n = 0x85 || n = 0x2028 || n = 0x2029

def pySplitlinesAux : List Char → List Char → List (List Char)
  | [], acc => if acc = [] then [] else [acc.reverse]
  | '\r' :: '\n' :: rest, acc => acc.reverse :: pySplitlinesAux rest []
  | c :: rest, acc =>
    if isLineBreak c then acc.reverse :: pySplitlinesAux rest []
    else pySplitlinesAux rest (c :: acc)

def pySplitlines (s : String) : List String :=
  (pySplitlinesAux s.data []).map (fun l => ⟨l⟩)

def _render_markdown (mdify : String → String) (clean_html : String) : String :=
  let markdown := mdify clean_html
  let cleaned_lines := (pySplitlines markdown).map pyRstrip
  let cleaned_lines := cleaned_lines.dropWhile (fun l => pyStrip l = "")
  pyStrip (String.intercalate "\n" cleaned_lines)

/-! ### External collaborators as an oracle

Every call that leaves the module (httpx downloads, the url2markdown
downloader, BeautifulSoup based cleaning and title extraction,
markdownify, the structured-content API) is a field of Oracle, one
possible behaviour of the outside world per conversion. -/

/-- The article object the url2markdown downloader returns; attribute
access with default None becomes Option, publish_date is carried as
its isoformat string. -/
structure Article where
  article_html : Option String
  html : Option String
  authors : Option PyVal
  publish_date : Option String
  keywords : Option PyVal
  title : Option String
  url : Option String

structure Oracle where
  /-- url2markdown_downloader(normalized_url); none is a raised
  exception, which the orchestrator swallows. -/
  u2m : String → Option Article
  /-- _clean_html (url_reader.py 205-215): BeautifulSoup comment,
  tag, selector removal and main-node selection, an external-library
  computation from HTML to HTML. -/
  clean : String → String
  /-- markdownify(clean_html, heading_style="ATX"). -/
  mdify : String → String
  /-- _extract_title_from_html (url_reader.py 237-244), BeautifulSoup
  title or first-heading extraction. -/
  titleFromHtml : String → Option String
  /-- GET on the splitbee API for a hyphen-free page id: none is an
  HTTP or JSON decoding failure, some is the decoded block map (the
  module then treats it as a dict keyed by block id). -/
  notionFetch : String → Option (List (String × PyVal))
  /-- _download_html: none is an httpx.HTTPError, some is the body
  and the final post-redirect URL. -/
  rawFetch : String → Option (String × String)
  /-- _fetch_via_jina_proxy: none is an httpx.HTTPError (the function
  logs and returns None), some is the response text. -/
  proxyFetch : String → Option String

/-- MarkdownConversionError with its message. -/
inductive ConvError where
  | conversionError : String → ConvError

/-! ### Stage functions (url_reader.py 97-188, 271-307) -/

/-- _markdown_from_html: raises on empty input HTML and on empty
rendered Markdown, otherwise builds the result with the derived word
count. -/
def _markdown_from_html (O : Oracle) (html original_url final_url : String)
    (metadata : List (String × PyVal)) : Except ConvError MarkdownResult :=
  if html = "" then .error (.conversionError "Empty HTML response.")
  else
    let cleaned_html := O.clean html
    let markdown := _render_markdown O.mdify cleaned_html
    if markdown = "" then .error (.conversionError "Rendered Markdown is empty.")
    else
      .ok { source_url := original_url, final_url := final_url,
            title := O.titleFromHtml html, markdown := markdown,
            word_count := _word_count markdown, metadata := metadata }

/-- getattr(article, "article_html", None) or getattr(article, "html",
None): the first truthy value, empty strings being falsy. -/
def articleHtml (a : Article) : Option String :=
  match a.article_html with
  | some s => if s ≠ "" then some s else
      (match a.html with
       | some t => if t ≠ "" then some t else Option.none
       | Option.none => Option.none)
  | Option.none =>
      match a.html with
      | some t => if t ≠ "" then some t else Option.none
      | Option.none => Option.none

/-- _convert_with_url2markdown.  A none from the downloader oracle
stands for a raised exception; the orchestrator catches every
exception from this stage, so both error shapes land in the same
fallback. -/
def _convert_with_url2markdown (O : Oracle) (normalized_url original_url : String)
    (metadata : List (String × PyVal)) : Except ConvError MarkdownResult :=
  match O.u2m normalized_url with
  | Option.none => .error (.conversionError "url2markdown raised")
  | some article =>
    match articleHtml article with
    | Option.none => .error (.conversionError "url2markdown returned empty HTML.")
    | some html =>
      let cleaned_html := O.clean html
      let markdown := _render_markdown O.mdify cleaned_html
      if markdown = "" then .error (.conversionError "Rendered Markdown is empty.")
      else
        let meta := metadata
        let meta := match article.authors with
          | some v => if pyTruthy v then dictSet meta "authors" v else meta
          | Option.none => meta
        let meta := match article.publish_date with
          | some d => dictSet meta "publish_date" (.str d)
          | Option.none => meta
        let meta := match article.keywords with
          | some v => if pyTruthy v then dictSet meta "keywords" v else meta
          | Option.none => meta
        let title := match article.title with
          | some t => if t ≠ "" then some t else O.titleFromHtml html
          | Option.none => O.titleFromHtml html
        let final_url := match article.url with
          | some u => if u ≠ "" then u else normalized_url
          | Option.none => normalized_url
        .ok { source_url := original_url, final_url := final_url,
              title := title, markdown := markdown,
              word_count := _word_count markdown, metadata := meta }

/-- _try_notion_api: decline (None) unless "notion.so" occurs in the
netloc and a page id is found; fetch and JSON failures decline; an
empty rendering declines; otherwise the result carries
renderer=notion-api. -/
def _try_notion_api (O : Oracle) (normalized_url original_url : String)
    (metadata : List (String × PyVal)) : Option MarkdownResult :=
  if !listContainsSub "notion.so".data (pyUrlparse normalized_url).netloc then
    Option.none
  else
    match _extract_notion_page_id normalized_url with
    | Option.none => Option.none
    | some page_id =>
      match O.notionFetch ⟨page_id.data.filter (· ≠ '-')⟩ with
      | Option.none => Option.none
      | some record_map =>
        let markdown := _render_notion_page record_map
        if markdown = "" then Option.none
        else
          some { source_url := original_url, final_url := normalized_url,
                 title := _guess_notion_title record_map,
                 markdown := markdown,
                 word_count := _word_count markdown,
                 metadata := dictSet metadata "renderer" (.str "notion-api") }

/-! ### Orchestrator (url_reader.py 97-138) -/

/-- The raw-fetch-and-later part of convert_url_to_markdown, entered
when neither the structured extractor nor an unescalated primary
result returned early. -/
def convertRawAndProxy (O : Oracle) (url normalized_url : String)
    (metadata : List (String × PyVal)) : Except ConvError MarkdownResult :=
  match O.rawFetch normalized_url with
  | Option.none =>
    .error (.conversionError "Failed to download HTML: httpx.HTTPError")
  | some (html, final_url) =>
    match _markdown_from_html O html url final_url metadata with
    | .error e => .error e
    | .ok http_result =>
      if !_needs_proxy_render http_result normalized_url then .ok http_result
      else
        match O.proxyFetch normalized_url with
        | some proxy_html =>
          if proxy_html ≠ "" then
            _markdown_from_html O proxy_html url normalized_url
              (dictSet metadata "renderer" (.str "r.jina.ai"))
          else .ok http_result
        | Option.none => .ok http_result

def convert_url_to_markdown (O : Oracle) (url : String) :
    Except ConvError MarkdownResult :=
  let norm := _normalize_special_urls url
  let normalized_url := norm.1
  let metadata := norm.2
  match _try_notion_api O normalized_url url metadata with
  | some notion_result => .ok notion_result
  | Option.none =>
    let result : Option MarkdownResult :=
      match _convert_with_url2markdown O normalized_url url metadata with
      | .ok r => some r
      | .error _ => Option.none
    match result with
    | some r =>
      if !_needs_proxy_render r normalized_url then .ok r
      else convertRawAndProxy O url normalized_url metadata
    | Option.none => convertRawAndProxy O url normalized_url metadata

/-! ### Helper lemmas on dictionaries and word counting -/

theorem dictSet_lookup_ne (m : List (String × PyVal)) (k k2 : String) (v : PyVal)
    (h : k ≠ k2) : (dictSet m k v).lookup k2 = m.lookup k2 := by
  have hkk : (k2 == k) = false := beq_eq_false_iff_ne.mpr (Ne.symm h)
  induction m with
  | nil => simp [dictSet, List.lookup, hkk]
  | cons a t ih =>
    obtain ⟨ka, va⟩ := a
    simp only [dictSet]
    by_cases hk : ka = k
    · subst hk
      simp [List.lookup, hkk]
    · rw [if_neg hk]
      cases hbeq : (k2 == ka) <;> simp [List.lookup, hbeq, ih]

theorem dictSet_lookup_self (m : List (String × PyVal)) (k : String) (v : PyVal) :
    (dictSet m k v).lookup k = some v := by
  induction m with
  | nil => simp [dictSet, List.lookup]
  | cons a t ih =>
    obtain ⟨ka, va⟩ := a
    simp only [dictSet]
    by_cases hk : ka = k
    · subst hk
      simp [List.lookup]
    · rw [if_neg hk]
      have hbeq : (k == ka) = false := beq_eq_false_iff_ne.mpr (fun he => hk he.symm)
      simp [List.lookup, hbeq, ih]

/-- Number of entries of an association list holding a key. -/
def countKey (k : String) (m : List (String × PyVal)) : Nat :=
  (m.filter (fun kv => kv.1 = k)).length

theorem countKey_dictSet_ne (m : List (String × PyVal)) (k k2 : String)
    (v : PyVal) (h : k2 ≠ k) : countKey k (dictSet m k2 v) = countKey k m := by
  induction m with
  | nil => simp [dictSet, countKey, h]
  | cons a t ih =>
    obtain ⟨ka, va⟩ := a
    simp only [dictSet]
    by_cases hk : ka = k2
    · subst hk
      simp [countKey, List.filter_cons, h]
    · rw [if_neg hk]
      simp only [countKey, List.filter_cons] at ih ⊢
      by_cases hka : ka = k <;> simp [hka, ih]

theorem countKey_cons_eq (k : String) (va : PyVal) (t : List (String × PyVal)) :
    countKey k ((k, va) :: t) = countKey k t + 1 := by
  simp [countKey, List.filter_cons]

theorem countKey_cons_ne (ka k : String) (va : PyVal) (t : List (String × PyVal))
    (h : ka ≠ k) : countKey k ((ka, va) :: t) = countKey k t := by
  simp [countKey, List.filter_cons, h]

theorem countKey_dictSet_self_le (m : List (String × PyVal)) (k : String)
    (v : PyVal) (h : countKey k m ≤ 1) : countKey k (dictSet m k v) ≤ 1 := by
  induction m with
  | nil => simp [dictSet, countKey]
  | cons a t ih =>
    obtain ⟨ka, va⟩ := a
    simp only [dictSet]
    by_cases hk : ka = k
    · subst hk
      rw [countKey_cons_eq] at h
      rw [if_pos rfl, countKey_cons_eq]
      exact h
    · rw [if_neg hk, countKey_cons_ne _ _ _ _ hk]
      rw [countKey_cons_ne _ _ _ _ hk] at h
      exact ih h

theorem filter_splitOnP_length_zero (p : Char → Bool) (l : List Char) :
    (((l.splitOnP p).filter (· ≠ [])).length = 0) ↔ l.all p := by
  induction l with
  | nil => simp [List.splitOnP_nil]
  | cons x xs ih =>
    rw [List.splitOnP_cons]
    by_cases hx : p x
    · simpa [hx] using ih
    · obtain ⟨h, t, ht⟩ : ∃ h t, xs.splitOnP p = h :: t := by
        cases hsp : xs.splitOnP p with
        | nil => exact absurd hsp (List.splitOnP_ne_nil _ _)
        | cons h t => exact ⟨h, t, rfl⟩
      simp [hx, ht, List.modifyHead]

/-- word_count is zero exactly on empty-or-all-whitespace markdown. -/
theorem word_count_zero_iff (m : String) :
    _word_count m = 0 ↔ m.data.all pyIsSpace := by
  unfold _word_count
  by_cases hm : m = ""
  · subst hm
    simp
  · rw [if_neg hm]
    unfold wordTokens
    exact filter_splitOnP_length_zero pyIsSpace m.data

/-! ### Stage inversion lemmas -/

theorem mfh_ok_inv (O : Oracle) (html u fu : String) (meta : List (String × PyVal))
    (r : MarkdownResult) (h : _markdown_from_html O html u fu meta = .ok r) :
    r.word_count = _word_count r.markdown ∧ r.markdown ≠ "" ∧ r.metadata = meta := by
  unfold _markdown_from_html at h
  dsimp only at h
  split at h
  · exact absurd h (by simp)
  · split at h
    · exact absurd h (by simp)
    · rename_i hmd
      rw [Except.ok.injEq] at h
      subst h
      exact ⟨rfl, hmd, rfl⟩

theorem u2m_ok_inv (O : Oracle) (nu ou : String) (meta : List (String × PyVal))
    (r : MarkdownResult) (h : _convert_with_url2markdown O nu ou meta = .ok r) :
    r.word_count = _word_count r.markdown ∧ r.markdown ≠ "" ∧
      r.metadata.lookup "renderer" = meta.lookup "renderer" ∧
      countKey "renderer" r.metadata = countKey "renderer" meta := by
  unfold _convert_with_url2markdown at h
  dsimp only at h
  split at h
  · exact absurd h (by simp)
  · rename_i article heq
    split at h
    · exact absurd h (by simp)
    · rename_i html hhtml
      split at h
      · exact absurd h (by simp)
      · rename_i hmd
        rw [Except.ok.injEq] at h
        subst h
        refine ⟨rfl, hmd, ?_, ?_⟩
        all_goals simp only
        all_goals
          repeat' first
            | rfl
            | rw [dictSet_lookup_ne _ "keywords" "renderer" _ (by decide)]
            | rw [dictSet_lookup_ne _ "publish_date" "renderer" _ (by decide)]
            | rw [dictSet_lookup_ne _ "authors" "renderer" _ (by decide)]
            | rw [countKey_dictSet_ne _ "renderer" "keywords" _ (by decide)]
            | rw [countKey_dictSet_ne _ "renderer" "publish_date" _ (by decide)]
            | rw [countKey_dictSet_ne _ "renderer" "authors" _ (by decide)]
            | split

theorem notion_some_inv (O : Oracle) (nu ou : String) (meta : List (String × PyVal))
    (r : MarkdownResult) (h : _try_notion_api O nu ou meta = some r) :
    r.word_count = _word_count r.markdown ∧ r.markdown ≠ "" ∧
      r.metadata = dictSet meta "renderer" (.str "notion-api") := by
  unfold _try_notion_api at h
  split at h
  · exact absurd h (by simp)
  · split at h
    · exact absurd h (by simp)
    · split at h
      · exact absurd h (by simp)
      · dsimp only at h
        split at h
        · exact absurd h (by simp)
        · rename_i hmd
          rw [Option.some.injEq] at h
          subst h
          exact ⟨rfl, hmd, rfl⟩

theorem rawproxy_ok_inv (O : Oracle) (u nu : String) (meta : List (String × PyVal))
    (r : MarkdownResult) (h : convertRawAndProxy O u nu meta = .ok r) :
    (∃ html fu, O.rawFetch nu = some (html, fu) ∧
      _markdown_from_html O html u fu meta = .ok r) ∨
    (∃ ph, O.proxyFetch nu = some ph ∧
      _markdown_from_html O ph u nu
        (dictSet meta "renderer" (.str "r.jina.ai")) = .ok r) := by
  unfold convertRawAndProxy at h
  split at h
  · exact absurd h (by simp)
  · rename_i html fu hraw
    split at h
    · exact absurd h (by simp)
    · rename_i http_result hmfh
      split at h
      · rw [Except.ok.injEq] at h
        subst h
        exact Or.inl ⟨html, fu, hraw, hmfh⟩
      · split at h
        · rename_i ph hph
          split at h
          · exact Or.inr ⟨ph, hph, h⟩
          · rw [Except.ok.injEq] at h
            subst h
            exact Or.inl ⟨html, fu, hraw, hmfh⟩
        · rw [Except.ok.injEq] at h
          subst h
          exact Or.inl ⟨html, fu, hraw, hmfh⟩

theorem convert_ok_inv (O : Oracle) (u : String) (r : MarkdownResult)
    (h : convert_url_to_markdown O u = .ok r) :
    _try_notion_api O (_normalize_special_urls u).1 u (_normalize_special_urls u).2
        = some r ∨
    _convert_with_url2markdown O (_normalize_special_urls u).1 u
        (_normalize_special_urls u).2 = .ok r ∨
    (∃ html fu, O.rawFetch (_normalize_special_urls u).1 = some (html, fu) ∧
      _markdown_from_html O html u fu (_normalize_special_urls u).2 = .ok r) ∨
    (∃ ph, O.proxyFetch (_normalize_special_urls u).1 = some ph ∧
      _markdown_from_html O ph u (_normalize_special_urls u).1
        (dictSet (_normalize_special_urls u).2 "renderer" (.str "r.jina.ai"))
        = .ok r) := by
  unfold convert_url_to_markdown at h
  dsimp only at h
  split at h
  · rename_i nr hn
    rw [Except.ok.injEq] at h
    subst h
    exact Or.inl hn
  · split at h
    · rename_i r2 hres
      split at h
      · rw [Except.ok.injEq] at h
        subst h
        have hu2m : _convert_with_url2markdown O (_normalize_special_urls u).1 u
            (_normalize_special_urls u).2 = .ok r2 := by
          split at hres
          · rename_i hok
            rw [Option.some.injEq] at hres
            subst hres
            exact hok
          · exact absurd hres (by simp)
        exact Or.inr (Or.inl hu2m)
      · rcases rawproxy_ok_inv O u _ _ r h with h2 | h2
        · exact Or.inr (Or.inr (Or.inl h2))
        · exact Or.inr (Or.inr (Or.inr h2))
    · rcases rawproxy_ok_inv O u _ _ r h with h2 | h2
      · exact Or.inr (Or.inr (Or.inl h2))
      · exact Or.inr (Or.inr (Or.inr h2))

/-! ### Concrete data for witnesses -/

/-- A fixed article for witness oracles. -/
def artA : Article :=
  { article_html := some "<html>x</html>", html := Option.none,
    authors := Option.none, publish_date := Option.none, keywords := Option.none,
    title := some "T", url := Option.none }

/-- A witness oracle: the primary converter succeeds with a one-word
page, everything downstream untouched. -/
def oracleA : Oracle :=
  { u2m := fun _ => some artA,
    clean := id, mdify := id, titleFromHtml := fun _ => Option.none,
    notionFetch := fun _ => Option.none,
    rawFetch := fun u => some ("<html>hello</html>", u),
    proxyFetch := fun _ => Option.none }

/-- The result convert_url_to_markdown produces from oracleA on
https://example.com/a. -/
def resultA : MarkdownResult :=
  { source_url := "https://example.com/a", final_url := "https://example.com/a",
    title := some "T", markdown := "<html>x</html>", word_count := 1,
    metadata := [] }

theorem oracleA_converts : convert_url_to_markdown oracleA "https://example.com/a" = .ok resultA := by
  rfl

/-! ### Claim C2 -/

/-- C2: every MarkdownResult returned by the pipeline (structured,
primary, raw or proxy path) has word_count equal to the number of
whitespace-separated nonempty tokens of its markdown, and word_count
is zero exactly when the markdown is empty or whitespace-only. -/
theorem C2_word_count_invariant :
    (∀ (O : Oracle) (u : String) (r : MarkdownResult),
        convert_url_to_markdown O u = .ok r →
        r.word_count = _word_count r.markdown) ∧
    (∀ m : String, _word_count m = 0 ↔ m.data.all pyIsSpace) := by
  constructor
  · intro O u r h
    rcases convert_ok_inv O u r h with hn | hu | ⟨html, fu, _, hm⟩ | ⟨ph, _, hm⟩
    · exact (notion_some_inv _ _ _ _ _ hn).1
    · exact (u2m_ok_inv _ _ _ _ _ hu).1
    · exact (mfh_ok_inv _ _ _ _ _ _ hm).1
    · exact (mfh_ok_inv _ _ _ _ _ _ hm).1
  · exact word_count_zero_iff

theorem C2_witness : resultA.word_count = _word_count resultA.markdown :=
  C2_word_count_invariant.1 oracleA "https://example.com/a" resultA oracleA_converts

/-! ### Claim C9 -/

/-- C9: whenever convert_url_to_markdown returns a MarkdownResult
rather than raising, its markdown is a nonempty string. -/
theorem C9_nonempty_markdown (O : Oracle) (u : String) (r : MarkdownResult)
    (h : convert_url_to_markdown O u = .ok r) : r.markdown ≠ "" := by
  rcases convert_ok_inv O u r h with hn | hu | ⟨html, fu, _, hm⟩ | ⟨ph, _, hm⟩
  · exact (notion_some_inv _ _ _ _ _ hn).2.1
  · exact (u2m_ok_inv _ _ _ _ _ hu).2.1
  · exact (mfh_ok_inv _ _ _ _ _ _ hm).2.1
  · exact (mfh_ok_inv _ _ _ _ _ _ hm).2.1

theorem C9_witness : resultA.markdown ≠ "" :=
  C9_nonempty_markdown oracleA "https://example.com/a" resultA oracleA_converts

/-! ### Claim C1 -/

/-- The allow-list condition as the specification words it: the host
equals one of the five fixed hosts, or ends with a dot followed by
one of them. -/
def hostAllowListed (host : String) : Prop :=
  ∃ a ∈ JINA_PROXY_HOSTS, host = a ∨ ("." ++ a).data <:+ host.data

theorem should_use_jina_proxy_iff (host : String) :
    _should_use_jina_proxy host = true ↔ hostAllowListed host := by
  unfold _should_use_jina_proxy hostAllowListed
  rw [List.any_eq_true]
  constructor
  · rintro ⟨a, ha, hcond⟩
    rw [Bool.or_eq_true] at hcond
    refine ⟨a, ha, ?_⟩
    rcases hcond with hc | hc
    · exact Or.inl (by simpa using hc)
    · exact Or.inr (by simpa [pyEndsWith, List.isSuffixOf_iff_suffix] using hc)
  · rintro ⟨a, ha, hc⟩
    refine ⟨a, ha, ?_⟩
    rw [Bool.or_eq_true]
    rcases hc with hc | hc
    · exact Or.inl (by simpa using hc)
    · exact Or.inr (by simpa [pyEndsWith, List.isSuffixOf_iff_suffix] using hc)

/-- C1: _needs_proxy_render holds iff word_count is strictly below 10
and the lowercased authority of the URL is, or is a dot-subdomain of,
one of the five allow-listed hosts; and the orchestrator applies this
predicate both to the primary-converter result and to the raw-fetch
result: an unflagged primary result is returned as is, a flagged one
sends the pipeline on to the raw stage, an unflagged raw result is
returned as is, and a flagged raw result makes the pipeline consult
the proxy. -/
theorem C1_escalation_policy :
    (∀ (r : MarkdownResult) (u : String),
        _needs_proxy_render r u = true ↔
          (r.word_count < 10 ∧ hostAllowListed (pyLower (pyNetloc u)))) ∧
    (∀ (O : Oracle) (u : String) (r : MarkdownResult),
        _try_notion_api O (_normalize_special_urls u).1 u
            (_normalize_special_urls u).2 = Option.none →
        _convert_with_url2markdown O (_normalize_special_urls u).1 u
            (_normalize_special_urls u).2 = .ok r →
        _needs_proxy_render r (_normalize_special_urls u).1 = false →
        convert_url_to_markdown O u = .ok r) ∧
    (∀ (O : Oracle) (u : String) (r : MarkdownResult),
        _try_notion_api O (_normalize_special_urls u).1 u
            (_normalize_special_urls u).2 = Option.none →
        _convert_with_url2markdown O (_normalize_special_urls u).1 u
            (_normalize_special_urls u).2 = .ok r →
        _needs_proxy_render r (_normalize_special_urls u).1 = true →
        convert_url_to_markdown O u =
          convertRawAndProxy O u (_normalize_special_urls u).1
            (_normalize_special_urls u).2) ∧
    (∀ (O : Oracle) (u nu : String) (meta : List (String × PyVal))
        (html fu : String) (hr : MarkdownResult),
        O.rawFetch nu = some (html, fu) →
        _markdown_from_html O html u fu meta = .ok hr →
        _needs_proxy_render hr nu = false →
        convertRawAndProxy O u nu meta = .ok hr) ∧
    (∀ (O : Oracle) (u nu : String) (meta : List (String × PyVal))
        (html fu ph : String) (hr : MarkdownResult),
        O.rawFetch nu = some (html, fu) →
        _markdown_from_html O html u fu meta = .ok hr →
        _needs_proxy_render hr nu = true →
        O.proxyFetch nu = some ph → ph ≠ "" →
        convertRawAndProxy O u nu meta =
          _markdown_from_html O ph u nu
            (dictSet meta "renderer" (.str "r.jina.ai"))) := by
  refine ⟨?_, ?_, ?_, ?_, ?_⟩
  · intro r u
    unfold _needs_proxy_render
    rw [Bool.and_eq_true, decide_eq_true_iff, should_use_jina_proxy_iff]
    exact Iff.rfl.and Iff.rfl
  · intro O u r hn hu hnp
    unfold convert_url_to_markdown
    dsimp only
    rw [hn, hu]
    simp [hnp]
  · intro O u r hn hu hnp
    unfold convert_url_to_markdown
    dsimp only
    rw [hn, hu]
    simp [hnp]
  · intro O u nu meta html fu hr hraw hm hnp
    unfold convertRawAndProxy
    rw [hraw]
    dsimp only
    rw [hm]
    simp [hnp]
  · intro O u nu meta html fu ph hr hraw hm hnp hph hph2
    unfold convertRawAndProxy
    rw [hraw]
    dsimp only
    rw [hm]
    simp [hnp, hph, hph2]

theorem C1_witness :
    _needs_proxy_render resultA "https://www.notion.so/x" = true ∧
    convert_url_to_markdown oracleA "https://example.com/a" = .ok resultA :=
  ⟨(C1_escalation_policy.1 resultA "https://www.notion.so/x").mpr
      ⟨by decide, "www.notion.so", by decide, Or.inl rfl⟩,
   C1_escalation_policy.2.1 oracleA "https://example.com/a" resultA rfl rfl rfl⟩

/-! ### Claim C4 -/

theorem norm_meta_renderer (u : String) :
    ((_normalize_special_urls u).2).lookup "renderer" = Option.none ∧
    countKey "renderer" (_normalize_special_urls u).2 = 0 := by
  unfold _normalize_special_urls
  split
  · exact ⟨rfl, rfl⟩
  · dsimp only
    split
    · exact ⟨rfl, rfl⟩
    · exact ⟨rfl, rfl⟩

/-- C4 counterexample: a conversion answered by the primary converter
returns metadata with no renderer key at all, refuting that every
returned result holds the key exactly once. -/
theorem C4_counterexample :
    convert_url_to_markdown oracleA "https://example.com/a" = .ok resultA ∧
    resultA.metadata.lookup "renderer" = Option.none :=
  ⟨oracleA_converts, rfl⟩

/-- C4 (amended): the metadata of every returned result holds the
renderer key at most once, and only with the value of the stage that
set it: the structured extractor stamps notion-api, the proxy path
stamps r.jina.ai, and results produced by the primary converter or
the raw fetch carry no renderer key. -/
theorem C4_renderer_set_at_most_once :
    (∀ (O : Oracle) (u : String) (r : MarkdownResult),
        convert_url_to_markdown O u = .ok r →
        countKey "renderer" r.metadata ≤ 1 ∧
          (r.metadata.lookup "renderer" = Option.none ∨
           r.metadata.lookup "renderer" = some (.str "notion-api") ∨
           r.metadata.lookup "renderer" = some (.str "r.jina.ai"))) ∧
    (∀ (O : Oracle) (nu ou : String) (meta : List (String × PyVal))
        (r : MarkdownResult),
        _try_notion_api O nu ou meta = some r →
        r.metadata.lookup "renderer" = some (.str "notion-api")) ∧
    (∀ (O : Oracle) (html u fu : String) (meta : List (String × PyVal))
        (r : MarkdownResult),
        _markdown_from_html O html u fu meta = .ok r → r.metadata = meta) := by
  refine ⟨?_, ?_, ?_⟩
  · intro O u r h
    rcases convert_ok_inv O u r h with hn | hu | ⟨html, fu, _, hm⟩ | ⟨ph, _, hm⟩
    · rw [(notion_some_inv _ _ _ _ _ hn).2.2]
      refine ⟨countKey_dictSet_self_le _ _ _ ?_,
        Or.inr (Or.inl (dictSet_lookup_self _ _ _))⟩
      rw [(norm_meta_renderer u).2]
      exact Nat.zero_le 1
    · have h3 := (u2m_ok_inv _ _ _ _ _ hu).2.2
      constructor
      · rw [h3.2, (norm_meta_renderer u).2]
        exact Nat.zero_le 1
      · exact Or.inl (by rw [h3.1, (norm_meta_renderer u).1])
    · rw [(mfh_ok_inv _ _ _ _ _ _ hm).2.2]
      refine ⟨?_, Or.inl (norm_meta_renderer u).1⟩
      rw [(norm_meta_renderer u).2]
      exact Nat.zero_le 1
    · rw [(mfh_ok_inv _ _ _ _ _ _ hm).2.2]
      refine ⟨countKey_dictSet_self_le _ _ _ ?_,
        Or.inr (Or.inr (dictSet_lookup_self _ _ _))⟩
      rw [(norm_meta_renderer u).2]
      exact Nat.zero_le 1
  · intro O nu ou meta r h
    rw [(notion_some_inv _ _ _ _ _ h).2.2]
    exact dictSet_lookup_self _ _ _
  · intro O html u fu meta r h
    exact (mfh_ok_inv _ _ _ _ _ _ h).2.2

theorem C4_witness :
    countKey "renderer" resultA.metadata ≤ 1 ∧
      (resultA.metadata.lookup "renderer" = Option.none ∨
       resultA.metadata.lookup "renderer" = some (.str "notion-api") ∨
       resultA.metadata.lookup "renderer" = some (.str "r.jina.ai")) :=
  C4_renderer_set_at_most_once.1 oracleA "https://example.com/a" resultA
    oracleA_converts

/-! ### Claim C5 -/

/-- Oracle for the C5 counterexample: primary converter raises, the
raw fetch yields a one-word page on an allow-listed host, and the
proxy fetch succeeds with HTML that renders to empty Markdown (as a
script-only body does after sanitization). -/
def oracleB : Oracle :=
  { u2m := fun _ => Option.none,
    clean := id,
    mdify := fun s => if s = "<p>tiny</p>" then "tiny" else "",
    titleFromHtml := fun _ => Option.none,
    notionFetch := fun _ => Option.none,
    rawFetch := fun u => some ("<p>tiny</p>", u),
    proxyFetch := fun _ => some "<script>x</script>" }

/-- The raw-fetch result oracleB produces. -/
def rawResultB : MarkdownResult :=
  { source_url := "https://www.notion.so/x",
    final_url := "https://www.notion.so/x?pvs=4",
    title := Option.none, markdown := "tiny", word_count := 1,
    metadata := [("normalizer", .str "notion-reader-mode")] }

/-- C5 counterexample: the raw stage succeeded and its result was
flagged for escalation, the proxy fetch also succeeded but its HTML
renders to empty Markdown, and the conversion surfaces an error to
the caller instead of falling back to the raw result. -/
theorem C5_counterexample :
    oracleB.rawFetch "https://www.notion.so/x?pvs=4" =
      some ("<p>tiny</p>", "https://www.notion.so/x?pvs=4") ∧
    _markdown_from_html oracleB "<p>tiny</p>" "https://www.notion.so/x"
      "https://www.notion.so/x?pvs=4"
      [("normalizer", .str "notion-reader-mode")] = .ok rawResultB ∧
    _needs_proxy_render rawResultB "https://www.notion.so/x?pvs=4" = true ∧
    convert_url_to_markdown oracleB "https://www.notion.so/x" =
      .error (.conversionError "Rendered Markdown is empty.") :=
  ⟨rfl, rfl, rfl, rfl⟩

/-- C5 (amended): when the raw-fetch stage produced a result flagged
for escalation and the proxy fetch yields no HTML (request failure or
empty body), the conversion returns that raw result even though its
word count is below the threshold; only a proxy fetch that succeeds
with HTML rendering to empty Markdown propagates an error. -/
theorem C5_proxy_failure_soft_fallback
    (O : Oracle) (u html fu : String) (hr : MarkdownResult)
    (hn : _try_notion_api O (_normalize_special_urls u).1 u
        (_normalize_special_urls u).2 = Option.none)
    (hu2m : ∀ r, _convert_with_url2markdown O (_normalize_special_urls u).1 u
        (_normalize_special_urls u).2 = .ok r →
        _needs_proxy_render r (_normalize_special_urls u).1 = true)
    (hraw : O.rawFetch (_normalize_special_urls u).1 = some (html, fu))
    (hm : _markdown_from_html O html u fu (_normalize_special_urls u).2 = .ok hr)
    (hnp : _needs_proxy_render hr (_normalize_special_urls u).1 = true)
    (hpf : O.proxyFetch (_normalize_special_urls u).1 = Option.none ∨
           O.proxyFetch (_normalize_special_urls u).1 = some "") :
    convert_url_to_markdown O u = .ok hr := by
  have hrp : convertRawAndProxy O u (_normalize_special_urls u).1
      (_normalize_special_urls u).2 = .ok hr := by
    unfold convertRawAndProxy
    rw [hraw]
    dsimp only
    rw [hm]
    rcases hpf with hpf | hpf <;> simp [hnp, hpf]
  unfold convert_url_to_markdown
  dsimp only
  rw [hn]
  cases hu2 : _convert_with_url2markdown O (_normalize_special_urls u).1 u
      (_normalize_special_urls u).2 with
  | error e => exact hrp
  | ok r2 =>
    have hneeds := hu2m r2 hu2
    show (if (!_needs_proxy_render r2 (_normalize_special_urls u).1) = true
        then Except.ok r2
        else convertRawAndProxy O u (_normalize_special_urls u).1
          (_normalize_special_urls u).2) = Except.ok hr
    rw [hneeds]
    exact hrp

/-- Oracle for the C5 witness: as oracleB but the proxy fetch fails. -/
def oracleC : Oracle :=
  { oracleB with proxyFetch := fun _ => Option.none }

theorem C5_witness :
    convert_url_to_markdown oracleC "https://www.notion.so/x" = .ok rawResultB :=
  C5_proxy_failure_soft_fallback oracleC "https://www.notion.so/x" "<p>tiny</p>"
    "https://www.notion.so/x?pvs=4" rawResultB rfl
    (fun _ h => Except.noConfusion h) rfl rfl rfl (Or.inl rfl)

/-! ### Claim C3 -/

theorem hex32Search_some (l raw : List Char) (h : hex32Search l = some raw) :
    raw.length = 32 ∧ raw.all hexCharPy := by
  induction l with
  | nil => exact absurd h (by simp [hex32Search])
  | cons c rest ih =>
    rw [hex32Search] at h
    split at h
    · rename_i hcond
      rw [Option.some.injEq] at h
      subst h
      simp only [Bool.and_eq_true, decide_eq_true_iff] at hcond
      exact hcond
    · exact ih h

/-- The record map used by the structured-rendering claims: a page
block with empty title whose children are a header Intro and two
bulleted items a and b, all live, no grandchildren. -/
def notionMapA : List (String × PyVal) :=
  [("p", .dict [("value", .dict [("id", .str "p"), ("type", .str "page"),
      ("alive", .bool true),
      ("properties", .dict [("title", .list [])]),
      ("content", .list [.str "h", .str "b1", .str "b2"])])]),
   ("h", .dict [("value", .dict [("type", .str "header"), ("alive", .bool true),
      ("properties", .dict [("title", .list [.list [.str "Intro"]])])])]),
   ("b1", .dict [("value", .dict [("type", .str "bulleted_list"),
      ("alive", .bool true),
      ("properties", .dict [("title", .list [.list [.str "a"]])])])]),
   ("b2", .dict [("value", .dict [("type", .str "bulleted_list"),
      ("alive", .bool true),
      ("properties", .dict [("title", .list [.list [.str "b"]])])])])]

/-- An oracle whose structured-content fetch always succeeds with a
well-formed page, so any decline is the gate refusing the URL. -/
def oracleN : Oracle :=
  { u2m := fun _ => Option.none, clean := id, mdify := id,
    titleFromHtml := fun _ => Option.none,
    notionFetch := fun _ => some notionMapA,
    rawFetch := fun _ => Option.none, proxyFetch := fun _ => Option.none }

def nSiteUrl : String :=
  "https://www.notion.site/My-0123456789abcdef0123456789abcdef"

/-- C3 counterexample: a notion.site URL whose host is on the
escalation allow-list and which carries a 32-hex page id, yet the
structured extractor declines up front: its gate tests for the
substring notion.so in the netloc, which www.notion.site fails. -/
theorem C3_counterexample :
    pyLower (pyNetloc nSiteUrl) ∈ JINA_PROXY_HOSTS ∧
    _extract_notion_page_id nSiteUrl =
      some "01234567-89ab-cdef-0123-456789abcdef" ∧
    _render_notion_page notionMapA ≠ "" ∧
    _try_notion_api oracleN nSiteUrl nSiteUrl [] = Option.none :=
  ⟨by decide, rfl, by decide, rfl⟩

/-- C3 (amended): the structured extractor runs exactly when the
string notion.so occurs as a substring of the normalized URL netloc
(true for notion.so and www.notion.so, false for notion.site and
docs.google.com hosts): when the substring is absent it declines for
every oracle, and likewise when no 32-character hexadecimal run
survives hyphen stripping; when such a run exists the extracted
identifier is that leftmost run re-hyphenated in canonical 8-4-4-4-12
placement, and a URL passing the gate with an identifier whose content
fetch succeeds and renders nonempty Markdown produces a structured
result stamped renderer=notion-api. -/
theorem C3_structured_extractor_gate :
    (∀ (O : Oracle) (nu ou : String) (meta : List (String × PyVal)),
        listContainsSub "notion.so".data (pyUrlparse nu).netloc = false →
        _try_notion_api O nu ou meta = Option.none) ∧
    (∀ (O : Oracle) (nu ou : String) (meta : List (String × PyVal)),
        _extract_notion_page_id nu = Option.none →
        _try_notion_api O nu ou meta = Option.none) ∧
    (∀ (url : String) (raw : List Char),
        hex32Search (url.data.filter (· ≠ '-')) = some raw →
        raw.length = 32 ∧ raw.all hexCharPy ∧
        _extract_notion_page_id url =
          some ⟨raw.take 8 ++ '-' :: ((raw.drop 8).take 4) ++ '-' ::
            ((raw.drop 12).take 4) ++ '-' :: ((raw.drop 16).take 4) ++ '-' ::
            raw.drop 20⟩) ∧
    (∀ (O : Oracle) (nu ou : String) (meta : List (String × PyVal))
        (pid : String) (rm : List (String × PyVal)),
        listContainsSub "notion.so".data (pyUrlparse nu).netloc = true →
        _extract_notion_page_id nu = some pid →
        O.notionFetch ⟨pid.data.filter (· ≠ '-')⟩ = some rm →
        _render_notion_page rm ≠ "" →
        _try_notion_api O nu ou meta =
          some { source_url := ou, final_url := nu,
                 title := _guess_notion_title rm,
                 markdown := _render_notion_page rm,
                 word_count := _word_count (_render_notion_page rm),
                 metadata := dictSet meta "renderer" (.str "notion-api") }) := by
  refine ⟨?_, ?_, ?_, ?_⟩
  · intro O nu ou meta hgate
    unfold _try_notion_api
    rw [hgate]
    rfl
  · intro O nu ou meta hid
    unfold _try_notion_api
    rw [hid]
    split <;> rfl
  · intro url raw h
    obtain ⟨hlen, hall⟩ := hex32Search_some _ _ h
    refine ⟨hlen, hall, ?_⟩
    unfold _extract_notion_page_id
    rw [h]
  · intro O nu ou meta pid rm hgate hid hfetch hrender
    unfold _try_notion_api
    rw [hgate]
    rw [if_neg (by decide)]
    rw [hid]
    dsimp only
    rw [hfetch]
    dsimp only
    rw [if_neg hrender]

theorem C3_witness :
    _try_notion_api oracleA "https://example.com/a" "https://example.com/a" []
      = Option.none ∧
    _try_notion_api oracleN
        "https://www.notion.so/My-0123456789abcdef0123456789abcdef"
        "https://www.notion.so/My-0123456789abcdef0123456789abcdef" [] =
      some { source_url :=
               "https://www.notion.so/My-0123456789abcdef0123456789abcdef",
             final_url :=
               "https://www.notion.so/My-0123456789abcdef0123456789abcdef",
             title := _guess_notion_title notionMapA,
             markdown := _render_notion_page notionMapA,
             word_count := _word_count (_render_notion_page notionMapA),
             metadata := dictSet [] "renderer" (.str "notion-api") } :=
  ⟨C3_structured_extractor_gate.1 oracleA "https://example.com/a"
    "https://example.com/a" [] rfl,
   C3_structured_extractor_gate.2.2.2 oracleN
    "https://www.notion.so/My-0123456789abcdef0123456789abcdef"
    "https://www.notion.so/My-0123456789abcdef0123456789abcdef" []
    "01234567-89ab-cdef-0123-456789abcdef" notionMapA
    (by decide) (by decide) rfl (by decide)⟩

/-! ### Claims C7 and C8 -/

/-- C7: rendering the fixed record map with page children
header(Intro), bulleted(a), bulleted(b) yields exactly the string
with the heading, a blank line, and the two ordered bullets; the
rendering is a pure function of the record map, so rendering twice is
identical by reflexivity. -/
theorem C7_deterministic_block_rendering :
    _render_notion_page notionMapA = "# Intro\n\n- a\n- b" ∧
    _render_notion_page notionMapA = _render_notion_page notionMapA :=
  ⟨by decide, rfl⟩

theorem strExt (a b : String) (h : a.data = b.data) : a = b := by
  cases a
  cases b
  cases h
  rfl

theorem strDataAppend (a b : String) : (a ++ b).data = a.data ++ b.data := rfl

/-- C8: a live to_do block rendered at depth d with rendered rich
text t produces the single line indent - [x] t when its checked
property is the rich text Yes, and indent - [ ] t when it is No or
absent, the indent being two spaces per depth unit. -/
theorem C8_todo_rendering (d : Nat) (rt : PyVal) :
    blockOwnLines (.dict [("type", .str "to_do"), ("alive", .bool true),
        ("properties", .dict [("title", rt),
          ("checked", .list [.list [.str "Yes"]])])]) d =
      [(⟨List.replicate (2 * d) ' '⟩ : String) ++ "- [x] " ++
        _rich_text_to_markdown rt] ∧
    blockOwnLines (.dict [("type", .str "to_do"), ("alive", .bool true),
        ("properties", .dict [("title", rt),
          ("checked", .list [.list [.str "No"]])])]) d =
      [(⟨List.replicate (2 * d) ' '⟩ : String) ++ "- [ ] " ++
        _rich_text_to_markdown rt] ∧
    blockOwnLines (.dict [("type", .str "to_do"), ("alive", .bool true),
        ("properties", .dict [("title", rt)])]) d =
      [(⟨List.replicate (2 * d) ' '⟩ : String) ++ "- [ ] " ++
        _rich_text_to_markdown rt] := by
  refine ⟨?_, ?_, ?_⟩
  · show [(⟨List.replicate (2 * d) ' '⟩ : String) ++ "- [" ++ "x" ++ "] " ++
        _rich_text_to_markdown (dictGet [("title", rt),
          ("checked", .list [.list [.str "Yes"]])] "title")] = _
    refine congrArg (fun z => [z]) (strExt _ _ ?_)
    simp only [strDataAppend, List.append_assoc]
    rfl
  · show [(⟨List.replicate (2 * d) ' '⟩ : String) ++ "- [" ++ " " ++ "] " ++
        _rich_text_to_markdown (dictGet [("title", rt),
          ("checked", .list [.list [.str "No"]])] "title")] = _
    refine congrArg (fun z => [z]) (strExt _ _ ?_)
    simp only [strDataAppend, List.append_assoc]
    rfl
  · show [(⟨List.replicate (2 * d) ' '⟩ : String) ++ "- [" ++ " " ++ "] " ++
        _rich_text_to_markdown (dictGet [("title", rt)] "title")] = _
    refine congrArg (fun z => [z]) (strExt _ _ ?_)
    simp only [strDataAppend, List.append_assoc]
    rfl

/-! ### Claim C10 -/

/-- The child step of the block recursion: the parent is found in the
block dict, truthy and alive, its content is truthy, and the child id
is one of the content items.  _render_notion_blocks recurses exactly
along this relation. -/
def notionStep (blocks : List (String × PyVal)) (p c : String) : Prop :=
  ∃ b, blocks.lookup p = some b ∧ pyTruthy b = true ∧
    pyTruthy (pvGet b "alive") = true ∧
    pyTruthy (pvGet b "content") = true ∧
    (.str c) ∈ pvListItems (pvGet b "content")

/-- An id of the current id list that the recursion actually
processes: listed, found, truthy and alive. -/
def processedIn (ids : PyVal) (blocks : List (String × PyVal)) (c : String) :
    Prop :=
  (.str c) ∈ pvListItems ids ∧
    ∃ b, blocks.lookup c = some b ∧ pyTruthy b = true ∧
      pyTruthy (pvGet b "alive") = true

theorem flatMapCongr {α β : Type} (l : List α) (f g : α → List β)
    (h : ∀ x ∈ l, f x = g x) : l.flatMap f = l.flatMap g := by
  induction l with
  | nil => rfl
  | cons x t ih =>
    simp only [List.flatMap_cons]
    rw [h x (List.mem_cons_self x t),
      ih (fun y hy => h y (List.mem_cons_of_mem x hy))]

theorem flatMapNil {α β : Type} (l : List α) :
    l.flatMap (fun _ => ([] : List β)) = [] := by
  induction l with
  | nil => rfl
  | cons x t ih => simp only [List.flatMap_cons, List.nil_append, ih]

theorem lookup_mem (k : String) (v : PyVal) (l : List (String × PyVal))
    (h : l.lookup k = some v) : (k, v) ∈ l := by
  induction l with
  | nil => exact absurd h (by simp)
  | cons a t ih =>
    obtain ⟨k2, v2⟩ := a
    simp only [List.lookup] at h
    cases hbeq : (k == k2) with
    | true =>
      rw [hbeq] at h
      rw [Option.some.injEq] at h
      subst h
      rw [show k = k2 from beq_iff_eq.mp hbeq]
      exact List.mem_cons_self _ _
    | false =>
      rw [hbeq] at h
      exact List.mem_cons_of_mem _ (ih h)

theorem le_foldr_max (x : Nat) (l : List Nat) (h : x ∈ l) :
    x ≤ l.foldr max 0 := by
  induction l with
  | nil => exact absurd h (by simp)
  | cons y t ih =>
    rcases List.mem_cons.mp h with rfl | hmem
    · exact Nat.le_max_left _ _
    · exact Nat.le_trans (ih hmem) (Nat.le_max_right _ _)

/-- Fuel stabilization of the block renderer: if a rank function
strictly decreases along notionStep, then any two fuels at least as
large as a bound on the ranks of the processed ids give identical
output. -/
theorem renderF_stable (blocks : List (String × PyVal)) (rank : String → Nat)
    (hrank : ∀ p c, notionStep blocks p c → rank c < rank p) :
    ∀ (k : Nat) (ids : PyVal) (depth m n : Nat),
      (∀ c, processedIn ids blocks c → rank c < k) →
      k ≤ m → k ≤ n →
      renderNotionBlocksF m ids blocks depth =
        renderNotionBlocksF n ids blocks depth := by
  intro k
  induction k using Nat.strong_induction_on with
  | _ k ih =>
    intro ids depth m n hb hm hn
    by_cases hk0 : k = 0
    · subst hk0
      have hz : ∀ mm, renderNotionBlocksF mm ids blocks depth = [] := by
        intro mm
        cases mm with
        | zero => rfl
        | succ mm2 =>
          simp only [renderNotionBlocksF]
          rw [flatMapCongr _ _ (fun _ => []) ?_, flatMapNil]
          intro bid hbid
          cases bid with
          | str c =>
            simp only
            cases hlook : blocks.lookup c with
            | none => rfl
            | some b =>
              by_cases hcond :
                  (!pyTruthy b || !pyTruthy (pvGet b "alive")) = true
              · simp [hcond]
              · exfalso
                have htr : pyTruthy b = true := by
                  cases hpt : pyTruthy b with
                  | true => rfl
                  | false => exact absurd (by rw [hpt]; rfl) hcond
                have hal : pyTruthy (pvGet b "alive") = true := by
                  cases hpa : pyTruthy (pvGet b "alive") with
                  | true => rfl
                  | false => exact absurd (by rw [hpa]; simp) hcond
                exact Nat.not_lt_zero (rank c) (hb c ⟨hbid, b, hlook, htr, hal⟩)
          | _ => rfl
      rw [hz m, hz n]
    · obtain ⟨k2, rfl⟩ : ∃ k2, k = k2 + 1 := ⟨k - 1, by omega⟩
      obtain ⟨m1, rfl⟩ : ∃ m1, m = m1 + 1 := ⟨m - 1, by omega⟩
      obtain ⟨n1, rfl⟩ : ∃ n1, n = n1 + 1 := ⟨n - 1, by omega⟩
      simp only [renderNotionBlocksF]
      apply flatMapCongr
      intro bid hbid
      cases bid with
      | str c =>
        simp only
        cases hlook : blocks.lookup c with
        | none => rfl
        | some b =>
          by_cases hcond : (!pyTruthy b || !pyTruthy (pvGet b "alive")) = true
          · simp [hcond]
          · have htr : pyTruthy b = true := by
              cases hpt : pyTruthy b with
              | true => rfl
              | false => exact absurd (by rw [hpt]; rfl) hcond
            have hal : pyTruthy (pvGet b "alive") = true := by
              cases hpa : pyTruthy (pvGet b "alive") with
              | true => rfl
              | false => exact absurd (by rw [hpa]; simp) hcond
            have hcf : (!pyTruthy b || !pyTruthy (pvGet b "alive")) = false := by
              rw [htr, hal]
              rfl
            have hrc : rank c < k2 + 1 := hb c ⟨hbid, b, hlook, htr, hal⟩
            dsimp only
            rw [hcf]
            rw [if_neg (show ¬(false = true) by simp),
              if_neg (show ¬(false = true) by simp)]
            congr 1
            by_cases hch : pyTruthy (pvGet b "content") = true
            · rw [if_pos hch, if_pos hch]
              refine ih (rank c) hrc (pvGet b "content") (depth + 1) m1 n1
                ?_ (by omega) (by omega)
              intro c2 hc2
              exact hrank c c2 ⟨b, hlook, htr, hal, hch, hc2.1⟩
            · rw [if_neg hch, if_neg hch]
      | _ => rfl

def maxKeyRank (rank : String → Nat) (blocks : List (String × PyVal)) : Nat :=
  (blocks.map (fun kv => rank kv.1)).foldr max 0

/-- C10: for every block map whose child-id reachability is acyclic —
witnessed by a rank function that strictly decreases along the child
step, which exists exactly when reachability on the finite map is
acyclic — the fuel-indexed embedding of the recursive block renderer
stabilizes: every fuel of at least maxKeyRank+1 yields one and the
same finite list of lines.  This is the termination guarantee needed
because the Python recursion descends along child-id references
rather than a structurally smaller argument. -/
theorem C10_rendering_terminates (blocks : List (String × PyVal))
    (rank : String → Nat)
    (hrank : ∀ p c, notionStep blocks p c → rank c < rank p)
    (ids : PyVal) (depth m n : Nat)
    (hm : maxKeyRank rank blocks + 1 ≤ m)
    (hn : maxKeyRank rank blocks + 1 ≤ n) :
    renderNotionBlocksF m ids blocks depth =
      renderNotionBlocksF n ids blocks depth := by
  refine renderF_stable blocks rank hrank (maxKeyRank rank blocks + 1) ids depth
    m n ?_ hm hn
  intro c hc
  obtain ⟨-, b, hlook, -, -⟩ := hc
  have hmem : (c, b) ∈ blocks := lookup_mem c b blocks hlook
  have hrm : rank c ∈ blocks.map (fun kv => rank kv.1) :=
    List.mem_map.mpr ⟨(c, b), hmem, rfl⟩
  exact Nat.lt_succ_of_le (le_foldr_max _ _ hrm)

/-- Rank function for the C10 witness map: the page dominates its
children. -/
def rankA (s : String) : Nat := if s = "p" then 1 else 0

theorem rankA_decreases :
    ∀ p c, notionStep (blocksOf notionMapA) p c → rankA c < rankA p := by
  intro p c hstep
  obtain ⟨b, hlook, htr, hal, hcont, hmem⟩ := hstep
  have hpb : (p, b) ∈ blocksOf notionMapA := lookup_mem p b _ hlook
  have hb2 : blocksOf notionMapA =
      [("p", .dict [("id", .str "p"), ("type", .str "page"),
          ("alive", .bool true),
          ("properties", .dict [("title", .list [])]),
          ("content", .list [.str "h", .str "b1", .str "b2"])]),
       ("h", .dict [("type", .str "header"), ("alive", .bool true),
          ("properties", .dict [("title", .list [.list [.str "Intro"]])])]),
       ("b1", .dict [("type", .str "bulleted_list"), ("alive", .bool true),
          ("properties", .dict [("title", .list [.list [.str "a"]])])]),
       ("b2", .dict [("type", .str "bulleted_list"), ("alive", .bool true),
          ("properties", .dict [("title", .list [.list [.str "b"]])])])] := rfl
  rw [hb2] at hpb
  simp only [List.mem_cons, List.not_mem_nil, or_false] at hpb
  rcases hpb with h | h | h | h
  all_goals rw [Prod.mk.injEq] at h
  all_goals obtain ⟨rfl, rfl⟩ := h
  · have hmem2 : (PyVal.str c) ∈
        [PyVal.str "h", PyVal.str "b1", PyVal.str "b2"] := hmem
    simp only [List.mem_cons, List.not_mem_nil, or_false] at hmem2
    have hc : c = "h" ∨ c = "b1" ∨ c = "b2" := by
      rcases hmem2 with h2 | h2 | h2
      · exact Or.inl (PyVal.str.injEq _ _ ▸ h2)
      · exact Or.inr (Or.inl (PyVal.str.injEq _ _ ▸ h2))
      · exact Or.inr (Or.inr (PyVal.str.injEq _ _ ▸ h2))
    rcases hc with rfl | rfl | rfl <;> decide
  · exact absurd hcont (by decide)
  · exact absurd hcont (by decide)
  · exact absurd hcont (by decide)

theorem C10_witness :
    renderNotionBlocksF 10 (.list [.str "h", .str "b1", .str "b2"])
        (blocksOf notionMapA) 0 =
      renderNotionBlocksF 2 (.list [.str "h", .str "b1", .str "b2"])
        (blocksOf notionMapA) 0 :=
  C10_rendering_terminates (blocksOf notionMapA) rankA rankA_decreases
    (.list [.str "h", .str "b1", .str "b2"]) 0 10 2 (by decide) (by decide)

/-! ### Claim C6: list lemmas -/

theorem dropWhile_head_false {p : Char → Bool} :
    ∀ (l : List Char) (c : Char) (r : List Char),
      l.dropWhile p = c :: r → p c = false := by
  intro l
  induction l with
  | nil => intro c r h; exact absurd h (by simp)
  | cons a t ih =>
    intro c r h
    rw [List.dropWhile_cons] at h
    split at h
    · exact ih c r h
    · rename_i hpa
      rw [List.cons.injEq] at h
      obtain ⟨rfl, rfl⟩ := h
      exact Bool.eq_false_iff.mpr hpa

theorem takeWhile_dropWhile_append (p : Char → Bool) (x y : List Char)
    (hx : ∀ ch ∈ x, p ch = true)
    (hy : y = [] ∨ ∃ d y2, y = d :: y2 ∧ p d = false) :
    (x ++ y).takeWhile p = x ∧ (x ++ y).dropWhile p = y := by
  induction x with
  | nil =>
    simp only [List.nil_append]
    rcases hy with rfl | ⟨d, y2, rfl, hd⟩
    · exact ⟨rfl, rfl⟩
    · rw [List.takeWhile_cons_of_neg (by simp [hd]),
        List.dropWhile_cons_of_neg (by simp [hd])]
      exact ⟨rfl, rfl⟩
  | cons a t ih =>
    have ha : p a = true := hx a (List.mem_cons_self _ _)
    obtain ⟨ht, hd⟩ := ih (fun ch hch => hx ch (List.mem_cons_of_mem _ hch))
    rw [List.cons_append, List.takeWhile_cons_of_pos ha,
      List.dropWhile_cons_of_pos ha, ht, hd]
    exact ⟨rfl, rfl⟩

/-- Python substring membership is list-infix membership. -/
theorem listContainsSub_iff (w l : List Char) :
    listContainsSub w l = true ↔ w <:+: l := by
  induction l with
  | nil => simp [listContainsSub, List.isEmpty_iff]
  | cons a t ih =>
    simp only [listContainsSub, Bool.or_eq_true, List.isPrefixOf_iff_prefix, ih,
      List.infix_cons_iff]

theorem prefix_append_split {w x y : List Char} (h : w <+: x ++ y) :
    w <+: x ∨ ∃ w2, w = x ++ w2 ∧ w2 <+: y := by
  rcases List.prefix_or_prefix_of_prefix h (List.prefix_append x y) with h2 | h2
  · exact Or.inl h2
  · right
    obtain ⟨w2, hw⟩ := h2
    subst hw
    exact ⟨w2, rfl, (List.prefix_append_right_inj x).mp h⟩

theorem infix_append_split {w : List Char} :
    ∀ {x y : List Char}, w <:+: x ++ y →
    w <:+: x ∨ w <:+: y ∨
      ∃ w1 w2, w = w1 ++ w2 ∧ w1 ≠ [] ∧ w2 ≠ [] ∧ w1 <:+ x ∧ w2 <+: y := by
  intro x
  induction x with
  | nil =>
    intro y h
    exact Or.inr (Or.inl (by simpa using h))
  | cons a x2 ih =>
    intro y h
    rw [List.cons_append, List.infix_cons_iff] at h
    rcases h with h | h
    · rcases prefix_append_split (show w <+: (a :: x2) ++ y from h) with
        h2 | ⟨w2, rfl, hw2⟩
      · exact Or.inl h2.isInfix
      · by_cases hw2e : w2 = []
        · subst hw2e
          exact Or.inl (by simp)
        · exact Or.inr (Or.inr ⟨a :: x2, w2, rfl, by simp, hw2e,
            List.suffix_refl _, hw2⟩)
    · rcases ih h with h2 | h2 | ⟨w1, w2, rfl, hw1e, hw2e, hw1, hw2⟩
      · exact Or.inl (List.infix_cons_iff.mpr (Or.inr h2))
      · exact Or.inr (Or.inl h2)
      · exact Or.inr (Or.inr ⟨w1, w2, rfl, hw1e, hw2e,
          hw1.trans (List.suffix_cons a x2), hw2⟩)

/-! ### Claim C6: character class lemmas -/

theorem charBound (c : Char) : c.toNat < 1114112 := by
  show c.val.toNat < 1114112
  rcases c.valid with h | ⟨h1, h2⟩ <;> omega

theorem toLower_eq_colon {c : Char} (h : Char.toLower c = ':') : c = ':' := by
  unfold Char.toLower at h
  dsimp only at h
  split at h
  · exfalso
    rename_i hr
    generalize hg : c.toNat = n at h hr
    obtain ⟨h1, h2⟩ := hr
    interval_cases n <;> exact absurd h (by decide)
  · exact h

theorem toLower_alpha {c : Char} (h : c.isAlpha = true) :
    (Char.toLower c).isAlpha = true := by
  unfold Char.toLower
  dsimp only
  split
  · rename_i hr
    generalize hg : c.toNat = n at hr
    obtain ⟨h1, h2⟩ := hr
    interval_cases n <;> decide
  · exact h

theorem toLower_schemeChar {c : Char} (h : schemeChar c = true) :
    schemeChar (Char.toLower c) = true := by
  unfold Char.toLower
  dsimp only
  split
  · rename_i hr
    generalize hg : c.toNat = n at hr
    obtain ⟨h1, h2⟩ := hr
    interval_cases n <;> decide
  · exact h

theorem toLower_safe {c : Char} (h : unsafeUrlByte c = false) :
    unsafeUrlByte (Char.toLower c) = false := by
  unfold Char.toLower
  dsimp only
  split
  · rename_i hr
    generalize hg : c.toNat = n at hr
    obtain ⟨h1, h2⟩ := hr
    interval_cases n <;> decide
  · exact h

theorem utf8EncodeChar_lt_256 (c : Char) : ∀ b ∈ utf8EncodeChar c, b < 256 := by
  intro b hb
  have hc := charBound c
  unfold utf8EncodeChar at hb
  dsimp only at hb
  split at hb
  · rename_i h
    simp only [List.mem_singleton] at hb
    omega
  · split at hb
    · rename_i h1 h2
      simp only [List.mem_cons, List.not_mem_nil, or_false] at hb
      rcases hb with rfl | rfl <;> omega
    · split at hb
      · rename_i h1 h2 h3
        simp only [List.mem_cons, List.not_mem_nil, or_false] at hb
        rcases hb with rfl | rfl | rfl <;> omega
      · rename_i h1 h2 h3
        simp only [List.mem_cons, List.not_mem_nil, or_false] at hb
        rcases hb with rfl | rfl | rfl | rfl <;> omega

/-- The character facts needed about the urlencoded query: none of
its characters is a colon, question mark, hash or WHATWG-unsafe
byte. -/
def qOk (ch : Char) : Prop :=
  ch ≠ ':' ∧ ch ≠ '?' ∧ ch ≠ '#' ∧ unsafeUrlByte ch = false

theorem hexDigitUpper_qOk (m : Nat) (hm : m < 16) : qOk (hexDigitUpper m) := by
  interval_cases m <;> exact ⟨by decide, by decide, by decide, by decide⟩

theorem alwaysSafe_qOk {ch : Char} (h : alwaysSafe ch = true) : qOk ch := by
  refine ⟨?_, ?_, ?_, ?_⟩
  · intro he; rw [he] at h; exact absurd h (by decide)
  · intro he; rw [he] at h; exact absurd h (by decide)
  · intro he; rw [he] at h; exact absurd h (by decide)
  · cases hu : unsafeUrlByte ch with
    | false => rfl
    | true =>
      exfalso
      have : ch = '\t' ∨ ch = '\r' ∨ ch = '\n' := by
        revert hu
        unfold unsafeUrlByte
        cases hd : decide (ch = '\t') <;> cases hd2 : decide (ch = '\r') <;>
          cases hd3 : decide (ch = '\n') <;> simp_all
      rcases this with rfl | rfl | rfl <;> exact absurd h (by decide)

theorem quotePlus_qOk (sIn : String) (ch : Char) (h : ch ∈ pyQuotePlus sIn) :
    qOk ch := by
  unfold pyQuotePlus at h
  rw [List.mem_flatMap] at h
  obtain ⟨c, -, hc⟩ := h
  split at hc
  · rename_i hsafe
    simp only [List.mem_singleton] at hc
    subst hc
    exact alwaysSafe_qOk hsafe
  · split at hc
    · simp only [List.mem_singleton] at hc
      subst hc
      exact ⟨by decide, by decide, by decide, by decide⟩
    · rw [List.mem_flatMap] at hc
      obtain ⟨b, hb, hbc⟩ := hc
      have hb256 : b < 256 := utf8EncodeChar_lt_256 c b hb
      unfold pctEncodeByte at hbc
      simp only [List.mem_cons, List.not_mem_nil, or_false] at hbc
      rcases hbc with rfl | rfl | rfl
      · exact ⟨by decide, by decide, by decide, by decide⟩
      · exact hexDigitUpper_qOk _ (by omega)
      · exact hexDigitUpper_qOk _ (by omega)

theorem mem_intercalate_amp {ch : Char} :
    ∀ (parts : List (List Char)), ch ∈ List.intercalate ['&'] parts →
      ch = '&' ∨ ∃ part ∈ parts, ch ∈ part := by
  intro parts
  induction parts with
  | nil => intro h; exact absurd h (by simp [List.intercalate, List.intersperse])
  | cons p t ih =>
    cases t with
    | nil =>
      intro h
      right
      refine ⟨p, by simp, ?_⟩
      simpa [List.intercalate, List.intersperse] using h
    | cons q t2 =>
      intro h
      have he : List.intercalate ['&'] (p :: q :: t2) =
          p ++ '&' :: List.intercalate ['&'] (q :: t2) := by
        simp [List.intercalate, List.intersperse]
      rw [he, List.mem_append, List.mem_cons] at h
      rcases h with h | h | h
      · exact Or.inr ⟨p, by simp, h⟩
      · exact Or.inl h
      · rcases ih h with h2 | ⟨part, hp, hc⟩
        · exact Or.inl h2
        · exact Or.inr ⟨part, List.mem_cons_of_mem _ hp, hc⟩

theorem urlencode_qOk (items : List (String × String)) (ch : Char)
    (h : ch ∈ pyUrlencode items) : qOk ch := by
  unfold pyUrlencode at h
  rcases mem_intercalate_amp _ h with rfl | ⟨part, hp, hc⟩
  · exact ⟨by decide, by decide, by decide, by decide⟩
  · rw [List.mem_map] at hp
    obtain ⟨kv, -, rfl⟩ := hp
    rw [List.mem_append, List.mem_cons] at hc
    rcases hc with hc | hc | hc
    · exact quotePlus_qOk _ _ hc
    · subst hc
      exact ⟨by decide, by decide, by decide, by decide⟩
    · exact quotePlus_qOk _ _ hc

theorem intercalate_last_suffix (sep : List Char) :
    ∀ (ps : List (List Char)) (last : List Char),
      last <:+ List.intercalate sep (ps ++ [last]) := by
  intro ps
  induction ps with
  | nil =>
    intro last
    have : List.intercalate sep [last] = last := by
      simp [List.intercalate, List.intersperse]
    rw [List.nil_append, this]
  | cons p t ih =>
    intro last
    cases t with
    | nil =>
      have : List.intercalate sep ([p] ++ [last]) = p ++ (sep ++ last) := by
        simp [List.intercalate, List.intersperse]
      rw [this]
      exact (List.suffix_append sep last).trans (List.suffix_append p _)
    | cons q t2 =>
      have he : List.intercalate sep ((p :: q :: t2) ++ [last]) =
          p ++ (sep ++ List.intercalate sep ((q :: t2) ++ [last])) := by
        simp [List.intercalate, List.intersperse]
      rw [he]
      exact ((ih last).trans (List.suffix_append sep _)).trans
        (List.suffix_append p _)

/-- The urlencoded query of the reader-mode normalization ends with
pvs=4, hence contains the marker pvs= and is nonempty. -/
theorem pvs_suffix (items : List (String × String)) :
    "pvs=4".data <:+ pyUrlencode (items ++ [("pvs", "4")]) := by
  unfold pyUrlencode
  rw [List.map_append]
  have : (List.map (fun kv => pyQuotePlus kv.1 ++ '=' :: pyQuotePlus kv.2)
      [(("pvs" : String), ("4" : String))]) = ["pvs=4".data] := by decide
  rw [this]
  exact intercalate_last_suffix _ _ _

theorem pvs_marker (items : List (String × String)) :
    listContainsSub "pvs=".data (pyUrlencode (items ++ [("pvs", "4")])) = true := by
  rw [listContainsSub_iff]
  have h1 : "pvs=".data <+: "pvs=4".data := by decide
  exact h1.isInfix.trans (pvs_suffix items).isInfix

theorem urlencode_ne_nil (items : List (String × String)) :
    pyUrlencode (items ++ [("pvs", "4")]) ≠ [] := by
  intro he
  obtain ⟨spre, hs⟩ := pvs_suffix items
  rw [he] at hs
  have h2 := List.append_eq_nil.mp hs
  exact absurd h2.2 (by decide)

/-! ### Claim C6: parse split lemmas -/

theorem splitScheme_spec (l : List Char) :
    splitScheme l = ([], l) ∨
    (∃ c0 s2 r, splitScheme l = (c0 :: s2, r) ∧ l = (c0 :: s2) ++ ':' :: r ∧
      c0.isAlpha = true ∧ (c0 :: s2).all schemeChar = true) := by
  have hsplit := (List.takeWhile_append_dropWhile (· ≠ ':') l).symm
  unfold splitScheme
  cases hdw : l.dropWhile (· ≠ ':') with
  | nil => exact Or.inl rfl
  | cons c rest =>
    have hcolon : c = ':' := by simpa using dropWhile_head_false l c rest hdw
    subst hcolon
    cases htw : l.takeWhile (· ≠ ':') with
    | nil => exact Or.inl rfl
    | cons c0 s2 =>
      dsimp only
      by_cases hcond : (c0.isAlpha && (c0 :: s2).all schemeChar) = true
      · rw [if_pos hcond]
        right
        rw [htw, hdw] at hsplit
        obtain ⟨ha, hall⟩ := Bool.and_eq_true_iff.mp hcond
        exact ⟨c0, s2, rest, rfl, hsplit, ha, hall⟩
      · rw [if_neg hcond]
        exact Or.inl rfl

theorem splitNetloc_decomp (l N R : List Char) (h : splitNetloc l = (N, R))
    (hN : N ≠ []) :
    l = '/' :: '/' :: (N ++ R) ∧ (∀ ch ∈ N, netlocDelim ch = false) ∧
      (R = [] ∨ ∃ d r2, R = d :: r2 ∧ netlocDelim d = true) := by
  unfold splitNetloc at h
  split at h
  · rename_i rest
    rw [Prod.mk.injEq] at h
    obtain ⟨rfl, rfl⟩ := h
    refine ⟨by rw [List.takeWhile_append_dropWhile], ?_, ?_⟩
    · intro ch hch
      have := List.mem_takeWhile_imp hch
      simpa using this
    · cases hdw : rest.dropWhile (fun c => !netlocDelim c) with
      | nil => exact Or.inl rfl
      | cons d r2 =>
        have := dropWhile_head_false rest d r2 hdw
        refine Or.inr ⟨d, r2, rfl, ?_⟩
        simpa using this
  · rw [Prod.mk.injEq] at h
    exact absurd h.1.symm hN

theorem splitAtFirst_decomp (sep : Char) (l : List Char) :
    ((splitAtFirst sep l).2 = [] ∧ (splitAtFirst sep l).1 = l) ∨
      l = (splitAtFirst sep l).1 ++ sep :: (splitAtFirst sep l).2 := by
  have hsplit := (List.takeWhile_append_dropWhile (· ≠ sep) l).symm
  unfold splitAtFirst
  cases hdw : l.dropWhile (· ≠ sep) with
  | nil =>
    left
    rw [hdw] at hsplit
    rw [List.append_nil] at hsplit
    exact ⟨rfl, hsplit.symm⟩
  | cons c rest =>
    right
    have hc : c = sep := by simpa using dropWhile_head_false l c rest hdw
    subst hc
    rw [hdw] at hsplit
    simpa using hsplit

theorem splitAtFirst_fst_nosep (sep : Char) (l : List Char) :
    ∀ ch ∈ (splitAtFirst sep l).1, ch ≠ sep := by
  intro ch hch
  have := List.mem_takeWhile_imp hch
  simpa using this

theorem splitAtFirst_fst_prefix (sep : Char) (l : List Char) :
    (splitAtFirst sep l).1 <+: l := by
  rcases splitAtFirst_decomp sep l with ⟨-, h⟩ | h
  · rw [h]
  · exact ⟨sep :: (splitAtFirst sep l).2, h.symm⟩

/-- Decomposition of pyUrlparse when the netloc is nonempty: the
filtered input splits into the raw scheme (whose lowering is the
parsed scheme), the double slash, the netloc, and a remainder of
which the path is a prefix and from which fragment and query come. -/
theorem pyUrlparse_decomp (u : String) (hne : (pyUrlparse u).netloc ≠ []) :
    ∃ S R2,
      (pyUrlparse u).scheme = S.map Char.toLower ∧
      (S = [] ∨ (S.all schemeChar = true ∧ ∃ c0 s2, S = c0 :: s2 ∧
        c0.isAlpha = true)) ∧
      u.data.filter (fun c => !unsafeUrlByte c)
        = S ++ (if S = [] then [] else [':']) ++ '/' :: '/' ::
          ((pyUrlparse u).netloc ++ R2) ∧
      (pyUrlparse u).pathParams <+: R2 ∧
      (∀ ch ∈ (pyUrlparse u).netloc, netlocDelim ch = false) ∧
      ((pyUrlparse u).pathParams = [] ∨
        ∃ p2, (pyUrlparse u).pathParams = '/' :: p2) ∧
      (∀ ch ∈ (pyUrlparse u).pathParams, ch ≠ '?' ∧ ch ≠ '#') ∧
      ((pyUrlparse u).fragment = [] ∨ (pyUrlparse u).fragment <:+ R2) := by
  unfold pyUrlparse at hne ⊢
  dsimp only at hne ⊢
  set u0 := u.data.filter (fun c => !unsafeUrlByte c) with hu0
  obtain ⟨N, R, hnr⟩ : ∃ N R, splitNetloc (splitScheme u0).2 = (N, R) :=
    ⟨_, _, rfl⟩
  have hne2 : N ≠ [] := by
    rw [hnr] at hne
    simpa using hne
  obtain ⟨hl, hNd, hRh⟩ := splitNetloc_decomp _ _ _ hnr hne2
  obtain ⟨prefrag, F, hfr⟩ : ∃ a b, splitAtFirst '#' R = (a, b) := ⟨_, _, rfl⟩
  obtain ⟨PP, Q0, hqr⟩ : ∃ a b, splitAtFirst '?' prefrag = (a, b) := ⟨_, _, rfl⟩
  have hppPre : PP <+: prefrag := by
    have := splitAtFirst_fst_prefix '?' prefrag
    rwa [hqr] at this
  have hpfPre : prefrag <+: R := by
    have := splitAtFirst_fst_prefix '#' R
    rwa [hfr] at this
  have hppR : PP <+: R := hppPre.trans hpfPre
  have hppNoQ : ∀ ch ∈ PP, ch ≠ '?' := by
    have := splitAtFirst_fst_nosep '?' prefrag
    rw [hqr] at this
    exact this
  have hppNoH : ∀ ch ∈ PP, ch ≠ '#' := by
    intro ch hch
    have hmem : ch ∈ prefrag := hppPre.subset hch
    have := splitAtFirst_fst_nosep '#' R
    rw [hfr] at this
    exact this ch hmem
  have hppHead : PP = [] ∨ ∃ p2, PP = '/' :: p2 := by
    cases hpp : PP with
    | nil => exact Or.inl rfl
    | cons d p2 =>
      right
      have hdR : d ∈ PP := by rw [hpp]; exact List.mem_cons_self _ _
      have hdhead : ∃ r3, R = d :: r3 := by
        obtain ⟨t1, ht1⟩ := hppR
        rw [hpp] at ht1
        exact ⟨p2 ++ t1, ht1.symm⟩
      obtain ⟨r3, hr3⟩ := hdhead
      rcases hRh with hR0 | ⟨d2, r4, hR4, hd2⟩
      · rw [hR0] at hr3
        exact absurd hr3 (by simp)
      · rw [hR4] at hr3
        rw [List.cons.injEq] at hr3
        obtain ⟨heqd, -⟩ := hr3
        rw [heqd] at hd2
        have hq := hppNoQ d hdR
        have hh := hppNoH d hdR
        unfold netlocDelim at hd2
        have : d = '/' := by
          rcases Bool.or_eq_true_iff.mp hd2 with h2 | h2
          · rcases Bool.or_eq_true_iff.mp h2 with h3 | h3
            · simpa using h3
            · exact absurd (by simpa using h3) hq
          · exact absurd (by simpa using h2) hh
        subst this
        exact ⟨p2, rfl⟩
  have hfrag : F = [] ∨ F <:+ R := by
    rcases splitAtFirst_decomp '#' R with ⟨h1, -⟩ | h1
    · rw [hfr] at h1
      exact Or.inl h1
    · rw [hfr] at h1
      right
      dsimp only at h1
      exact ⟨prefrag ++ ['#'], by rw [h1]; simp⟩
  rcases splitScheme_spec u0 with hss | ⟨c0, s2, r, hss, hdec, halpha, hall⟩
  · have hs2 : (splitScheme u0).2 = u0 := by rw [hss]
    rw [hs2] at hnr hl
    refine ⟨[], R, ?_⟩
    rw [hss, hnr, hfr, hqr]
    dsimp only
    refine ⟨rfl, Or.inl rfl, ?_, hppR, hNd, hppHead, ?_, hfrag⟩
    · rw [if_pos rfl]
      simpa using hl
    · intro ch hch
      exact ⟨hppNoQ ch hch, hppNoH ch hch⟩
  · have hs2 : (splitScheme u0).2 = r := by rw [hss]
    rw [hs2] at hnr hl
    refine ⟨c0 :: s2, R, ?_⟩
    rw [hss, hnr, hfr, hqr]
    dsimp only
    refine ⟨rfl, Or.inr ⟨hall, c0, s2, rfl, halpha⟩, ?_, hppR, hNd, hppHead,
      ?_, hfrag⟩
    · rw [if_neg (by simp)]
      rw [hdec, hl]
      simp
    · intro ch hch
      exact ⟨hppNoQ ch hch, hppNoH ch hch⟩

/-! ### Claim C6: unparse equation and reparse -/

theorem pyUrlunparse_eq (p : PyUrl) (hn : p.netloc ≠ []) (hq : p.query ≠ [])
    (hpp : p.pathParams = [] ∨ ∃ p2, p.pathParams = '/' :: p2) :
    pyUrlunparse p =
      (if p.scheme = [] then [] else p.scheme ++ [':']) ++
        '/' :: '/' :: (p.netloc ++ (p.pathParams ++ '?' :: (p.query ++
          (if p.fragment = [] then [] else '#' :: p.fragment)))) := by
  unfold pyUrlunparse
  dsimp only
  rw [if_pos (Or.inl hn)]
  have hpp2 : (if p.pathParams ≠ [] ∧ p.pathParams.take 1 ≠ ['/'] then
      '/' :: p.pathParams else p.pathParams) = p.pathParams := by
    rcases hpp with h | ⟨p2, h⟩
    · rw [if_neg]
      simp [h]
    · rw [if_neg]
      simp [h]
  rw [hpp2, if_pos hq]
  by_cases hs : p.scheme = [] <;> by_cases hf : p.fragment = [] <;>
    simp [hs, hf, List.append_assoc]

theorem splitScheme_build (S2 B : List Char) (c0 : Char) (s2 : List Char)
    (hcons : S2 = c0 :: s2) (halpha : c0.isAlpha = true)
    (hall : S2.all schemeChar = true) :
    splitScheme (S2 ++ ':' :: B) = (S2, B) := by
  have htd := takeWhile_dropWhile_append (· ≠ ':') S2 (':' :: B) ?_ ?_
  · unfold splitScheme
    dsimp only
    rw [htd.2]
    dsimp only
    rw [htd.1, hcons]
    dsimp only
    have hc : (c0.isAlpha && (c0 :: s2).all schemeChar) = true := by
      rw [← hcons, halpha, hall]
      rfl
    rw [if_pos hc, ← hcons]
  · intro ch hch
    have hsc := List.all_eq_true.mp hall ch hch
    have hne : ch ≠ ':' := fun he => by
      rw [he] at hsc
      exact absurd hsc (by decide)
    simp [hne]
  · exact Or.inr ⟨':', B, rfl, by simp⟩

theorem splitScheme_slash (B : List Char) :
    splitScheme ('/' :: B) = ([], '/' :: B) := by
  unfold splitScheme
  dsimp only
  cases hdw : ('/' :: B).dropWhile (· ≠ ':') with
  | nil => rfl
  | cons c rest =>
    rw [List.takeWhile_cons_of_pos (by decide)]
    rfl

theorem splitNetloc_build (N R : List Char)
    (hNd : ∀ ch ∈ N, netlocDelim ch = false)
    (hR : R = [] ∨ ∃ d r2, R = d :: r2 ∧ netlocDelim d = true) :
    splitNetloc ('/' :: '/' :: (N ++ R)) = (N, R) := by
  have htd := takeWhile_dropWhile_append (fun c => !netlocDelim c) N R ?_ ?_
  · show ((N ++ R).takeWhile (fun c => !netlocDelim c),
      (N ++ R).dropWhile (fun c => !netlocDelim c)) = (N, R)
    rw [htd.1, htd.2]
  · intro ch hch
    simp [hNd ch hch]
  · rcases hR with rfl | ⟨d, r2, rfl, hd⟩
    · exact Or.inl rfl
    · exact Or.inr ⟨d, r2, rfl, by simp [hd]⟩

theorem splitAtFirst_build (sep : Char) (x y : List Char)
    (hx : ∀ ch ∈ x, ch ≠ sep)
    (hy : y = [] ∨ ∃ y2, y = sep :: y2) :
    splitAtFirst sep (x ++ y) = (x, y.tail) := by
  have htd := takeWhile_dropWhile_append (· ≠ sep) x y ?_ ?_
  · unfold splitAtFirst
    rw [htd.1, htd.2]
  · intro ch hch
    simp [hx ch hch]
  · rcases hy with rfl | ⟨y2, rfl⟩
    · exact Or.inl rfl
    · exact Or.inr ⟨sep, y2, rfl, by simp⟩

/-- Parsing the reassembled URL recovers exactly the query that was
inserted. -/
theorem reparse_query (S2 N PP Q G : List Char)
    (hS : S2 = [] ∨ (S2.all schemeChar = true ∧
      ∃ c0 s2, S2 = c0 :: s2 ∧ c0.isAlpha = true))
    (hNd : ∀ ch ∈ N, netlocDelim ch = false)
    (hPP : PP = [] ∨ ∃ p2, PP = '/' :: p2)
    (hPPq : ∀ ch ∈ PP, ch ≠ '?' ∧ ch ≠ '#')
    (hQh : ∀ ch ∈ Q, ch ≠ '#')
    (hG : G = [] ∨ ∃ f, G = '#' :: f)
    (hsafeAll : ∀ ch ∈ ((if S2 = [] then [] else S2 ++ [':']) ++
      '/' :: '/' :: (N ++ (PP ++ '?' :: (Q ++ G)))), unsafeUrlByte ch = false) :
    (pyUrlparse ⟨(if S2 = [] then [] else S2 ++ [':']) ++
      '/' :: '/' :: (N ++ (PP ++ '?' :: (Q ++ G)))⟩).query = Q := by
  unfold pyUrlparse
  dsimp only
  have hfilter : (String.mk ((if S2 = [] then [] else S2 ++ [':']) ++
      '/' :: '/' :: (N ++ (PP ++ '?' :: (Q ++ G))))).data.filter
        (fun c => !unsafeUrlByte c) =
      (if S2 = [] then [] else S2 ++ [':']) ++
        '/' :: '/' :: (N ++ (PP ++ '?' :: (Q ++ G))) := by
    refine List.filter_eq_self.mpr ?_
    intro a ha
    rw [hsafeAll a ha]
    rfl
  rw [hfilter]
  have hB : splitScheme ((if S2 = [] then [] else S2 ++ [':']) ++
      '/' :: '/' :: (N ++ (PP ++ '?' :: (Q ++ G)))) =
      (if S2 = [] then [] else S2,
        '/' :: '/' :: (N ++ (PP ++ '?' :: (Q ++ G)))) := by
    rcases hS with hS0 | ⟨hall, c0, s2, hcons, halpha⟩
    · rw [if_pos hS0, if_pos hS0, List.nil_append]
      exact splitScheme_slash _
    · have hS2ne : S2 ≠ [] := by rw [hcons]; simp
      rw [if_neg hS2ne, if_neg hS2ne]
      have hshape : (S2 ++ [':']) ++ '/' :: '/' :: (N ++ (PP ++ '?' :: (Q ++ G)))
          = S2 ++ ':' :: ('/' :: '/' :: (N ++ (PP ++ '?' :: (Q ++ G)))) := by
        simp
      rw [hshape]
      exact splitScheme_build _ _ c0 s2 hcons halpha hall
  rw [hB]
  dsimp only
  have hnl := splitNetloc_build N (PP ++ '?' :: (Q ++ G)) hNd ?_
  · rw [hnl]
    dsimp only
    have hshape2 : PP ++ '?' :: (Q ++ G) = (PP ++ '?' :: Q) ++ G := by simp
    rw [hshape2]
    have hfr := splitAtFirst_build '#' (PP ++ '?' :: Q) G ?_ ?_
    · rw [hfr]
      dsimp only
      have hqr := splitAtFirst_build '?' PP ('?' :: Q) ?_ ?_
      · rw [hqr]
        rfl
      · intro ch hch
        exact (hPPq ch hch).1
      · exact Or.inr ⟨Q, rfl⟩
    · intro ch hch
      rw [List.mem_append, List.mem_cons] at hch
      rcases hch with hch | hch | hch
      · exact (hPPq ch hch).2
      · subst hch
        decide
      · exact hQh ch hch
    · rcases hG with rfl | ⟨f, rfl⟩
      · exact Or.inl rfl
      · exact Or.inr ⟨f, rfl⟩
  · rcases hPP with rfl | ⟨p2, rfl⟩
    · exact Or.inr ⟨'?', Q ++ G, by rw [List.nil_append], by decide⟩
    · exact Or.inr ⟨'/', p2 ++ ('?' :: (Q ++ G)), by simp, by decide⟩

/-! ### Claim C6: Google-Docs branch idempotence -/

theorem docsMatchAt_props {l run : List Char} (h : docsMatchAt l = some run) :
    run ≠ [] ∧ run.all docsIdChar = true := by
  unfold docsMatchAt at h
  split at h
  · dsimp only at h
    split at h
    · rename_i hne
      obtain rfl : (l.drop docsLit.length).takeWhile docsIdChar = run :=
        Option.some.injEq _ _ ▸ h
      refine ⟨hne, ?_⟩
      rw [List.all_eq_true]
      intro ch hch
      exact List.mem_takeWhile_imp hch
    · exact absurd h (by simp)
  · exact absurd h (by simp)

theorem docsSearch_props {run : List Char} :
    ∀ {l : List Char}, docsSearch l = some run →
      run ≠ [] ∧ run.all docsIdChar = true := by
  intro l
  induction l with
  | nil => intro h; exact absurd h (by simp [docsSearch])
  | cons c rest ih =>
    intro h
    unfold docsSearch at h
    cases hm : docsMatchAt (c :: rest) with
    | some r2 =>
      rw [hm] at h
      obtain rfl : r2 = run := by
        have := h
        simp only [Option.some.injEq] at this
        exact this
      exact docsMatchAt_props hm
    | none =>
      rw [hm] at h
      exact ih h

theorem docsMatchAt_build (run y : List Char) (hne : run ≠ [])
    (hall : run.all docsIdChar = true)
    (hy : y = [] ∨ ∃ d y2, y = d :: y2 ∧ docsIdChar d = false) :
    docsMatchAt (docsLit ++ (run ++ y)) = some run := by
  unfold docsMatchAt
  rw [if_pos]
  · dsimp only
    rw [List.drop_left]
    have htd := takeWhile_dropWhile_append docsIdChar run y
      (fun ch hch => List.all_eq_true.mp hall ch hch) hy
    rw [htd.1, if_pos hne]
  · rw [List.isPrefixOf_iff_prefix]
    exact List.prefix_append _ _

theorem docsSearch_fix (run : List Char) (hne : run ≠ [])
    (hall : run.all docsIdChar = true) :
    docsSearch (docsLit ++ run ++ "/export?format=html".data) = some run := by
  have hm := docsMatchAt_build run "/export?format=html".data hne hall
    (Or.inr ⟨'/', "export?format=html".data, rfl, by decide⟩)
  rw [List.append_assoc]
  show docsSearch ('h' :: ("ttps://docs.google.com/document/d/".data ++
    (run ++ "/export?format=html".data))) = some run
  unfold docsSearch
  rw [show docsLit ++ (run ++ "/export?format=html".data) =
    'h' :: ("ttps://docs.google.com/document/d/".data ++
      (run ++ "/export?format=html".data)) from rfl] at hm
  rw [hm]

theorem normalize_docs_idem (u : String) (run : List Char)
    (h : docsSearch u.data = some run) :
    (_normalize_special_urls (_normalize_special_urls u).1).1 =
      (_normalize_special_urls u).1 := by
  obtain ⟨hne, hall⟩ := docsSearch_props h
  have h1 : (_normalize_special_urls u).1 =
      ⟨docsLit ++ run ++ "/export?format=html".data⟩ := by
    unfold _normalize_special_urls
    rw [h]
  rw [h1]
  unfold _normalize_special_urls
  rw [show (String.mk (docsLit ++ run ++ "/export?format=html".data)).data =
    docsLit ++ run ++ "/export?format=html".data from rfl]
  rw [docsSearch_fix run hne hall]

/-! ### Claim C6: match-existence characterization of the docs regex -/

/-- A position where GOOGLE_DOCS_RE matches: the literal followed by
at least one id character. -/
def matchExists (l : List Char) : Prop :=
  ∃ d, docsIdChar d = true ∧ (docsLit ++ [d]) <:+: l

theorem docsMatchAt_some_of_prefix {l : List Char} {d : Char}
    (hd : docsIdChar d = true) (hp : (docsLit ++ [d]) <+: l) :
    ∃ run, docsMatchAt l = some run := by
  obtain ⟨t, ht⟩ := hp
  unfold docsMatchAt
  rw [if_pos]
  · dsimp only
    rw [← ht, List.append_assoc, List.drop_left]
    rw [show ([d] ++ t : List Char) = d :: t from rfl]
    rw [List.takeWhile_cons_of_pos hd]
    exact ⟨_, by rw [if_pos (by simp)]⟩
  · rw [List.isPrefixOf_iff_prefix, ← ht, List.append_assoc]
    exact List.prefix_append _ _

theorem docsMatchAt_mex {l run : List Char} (h : docsMatchAt l = some run) :
    matchExists l := by
  unfold docsMatchAt at h
  split at h
  · rename_i hpre
    dsimp only at h
    split at h
    · rename_i hne
      rw [List.isPrefixOf_iff_prefix] at hpre
      have hl : l = docsLit ++ l.drop docsLit.length := by
        conv_lhs => rw [← List.take_append_drop docsLit.length l]
        rw [← List.prefix_iff_eq_take.mp hpre]
      cases hdrop : l.drop docsLit.length with
      | nil => rw [hdrop] at hne; simp at hne
      | cons d z =>
        rw [hdrop] at hne
        cases hdc : docsIdChar d with
        | false =>
          rw [List.takeWhile_cons_of_neg (by simp [hdc])] at hne
          simp at hne
        | true =>
          refine ⟨d, hdc, [], z, ?_⟩
          rw [List.nil_append, hl, hdrop, List.append_assoc]
          rfl
    · exact absurd h (by simp)
  · exact absurd h (by simp)

theorem docsSearch_none_iff :
    ∀ l : List Char, docsSearch l = Option.none ↔ ¬ matchExists l := by
  intro l
  induction l with
  | nil =>
    constructor
    · rintro - ⟨d, hd, hinf⟩
      have h0 := hinf.sublist.length_le
      simp at h0
    · intro _; rfl
  | cons c rest ih =>
    unfold docsSearch
    cases hm : docsMatchAt (c :: rest) with
    | some run =>
      constructor
      · intro h; exact absurd h (by simp)
      · intro hnm; exact absurd (docsMatchAt_mex hm) hnm
    | none =>
      rw [ih]
      constructor
      · rintro hnm ⟨d, hd, hinf⟩
        rw [List.infix_cons_iff] at hinf
        rcases hinf with hp | hi
        · obtain ⟨run, hrun⟩ := docsMatchAt_some_of_prefix hd hp
          rw [hrun] at hm
          exact absurd hm (by simp)
        · exact hnm ⟨d, hd, hi⟩
      · intro hnm hme
        obtain ⟨d, hd, hi⟩ := hme
        exact hnm ⟨d, hd, List.infix_cons_iff.mpr (Or.inr hi)⟩

theorem suffix_concat_split {w1 x : List Char} {a : Char}
    (h : w1 <:+ x ++ [a]) :
    w1 = [] ∨ ∃ w0, w1 = w0 ++ [a] ∧ w0 <:+ x := by
  have h2 : w1.reverse <+: (x ++ [a]).reverse := by
    rw [List.reverse_prefix]
    exact h
  rw [List.reverse_append, List.reverse_singleton, List.singleton_append] at h2
  cases hw : w1.reverse with
  | nil =>
    left
    have := congrArg List.reverse hw
    simpa using this
  | cons b t =>
    right
    rw [hw, List.cons_prefix_cons] at h2
    obtain ⟨rfl, ht⟩ := h2
    refine ⟨t.reverse, ?_, ?_⟩
    · have := congrArg List.reverse hw
      simpa using this
    · rw [← List.reverse_prefix]
      simpa using ht

/-- The reassembled notion-branch URL admits no Google-Docs regex
match when the original URL admitted none. -/
theorem no_new_match
    (u0 S2 N PP Q G R2 : List Char)
    (hS2 : ∀ ch ∈ S2, schemeChar ch = true)
    (hchunk : ('/' :: '/' :: (N ++ R2)) <:+ u0)
    (hmu : ¬ matchExists u0)
    (hnotion : listContainsSub "notion.so".data N = true)
    (hNd : ∀ ch ∈ N, netlocDelim ch = false)
    (hPP : PP <+: R2)
    (hQc : ∀ ch ∈ Q, ch ≠ ':')
    (hG : G = [] ∨ ∃ f, G = '#' :: f ∧ f <:+ R2) :
    ¬ matchExists ((if S2 = [] then [] else S2 ++ [':']) ++
      '/' :: '/' :: (N ++ (PP ++ '?' :: (Q ++ G)))) := by
  rintro ⟨d, hd, hinf⟩
  have hdq : d ≠ '?' := by
    intro he; rw [he] at hd; exact absurd hd (by decide)
  have hdh : d ≠ '#' := by
    intro he; rw [he] at hd; exact absurd hd (by decide)
  have hq_not : ('?' : Char) ∉ docsLit ++ [d] := by
    intro hmem
    rw [List.mem_append, List.mem_singleton] at hmem
    rcases hmem with hmem | hmem
    · exact absurd hmem (by decide)
    · exact hdq hmem.symm
  have hh_not : ('#' : Char) ∉ docsLit ++ [d] := by
    intro hmem
    rw [List.mem_append, List.mem_singleton] at hmem
    rcases hmem with hmem | hmem
    · exact absurd hmem (by decide)
    · exact hdh hmem.symm
  have hcol_mem : (':' : Char) ∈ docsLit ++ [d] := by
    rw [List.mem_append]; left; decide
  have hslash_mem : ('/' : Char) ∈ docsLit ++ [d] := by
    rw [List.mem_append]; left; decide
  have hmu2 : ∀ {piece : List Char},
      (docsLit ++ [d]) <:+: piece → piece <:+: u0 → False := by
    intro piece h1 h2
    exact hmu ⟨d, hd, h1.trans h2⟩
  have hNotN : "notion.so".data <:+: N := (listContainsSub_iff _ _).mp hnotion
  have hNotD : ¬ ("notion.so".data <:+: "docs.google.com".data) := by
    intro h
    have h2 := (listContainsSub_iff "notion.so".data "docs.google.com".data).mpr h
    exact absurd h2 (by decide)
  have hshapeD : ("docs.google.com/document/d/".data : List Char) =
      "docs.google.com".data ++ "/document/d/".data := by decide
  have hNcase : ¬ (("docs.google.com/document/d/".data ++ [d]) <+:
      N ++ (PP ++ '?' :: (Q ++ G))) := by
    intro h3
    rcases prefix_append_split h3 with hA | ⟨w4, hw4, hw4p⟩
    · have hm : ('/' : Char) ∈ "docs.google.com/document/d/".data ++ [d] := by
        rw [List.mem_append]; left; decide
      have := hNd _ (hA.subset hm)
      exact absurd this (by decide)
    · have hNp : N <+: "docs.google.com".data ++ ("/document/d/".data ++ [d]) := by
        refine ⟨w4, ?_⟩
        rw [← hw4, ← List.append_assoc, ← hshapeD]
      rcases prefix_append_split hNp with hB | ⟨n2, hn2, hn2p⟩
      · exact hNotD (hNotN.trans hB.isInfix)
      · cases n2 with
        | nil =>
          rw [List.append_nil] at hn2
          rw [hn2] at hNotN
          exact hNotD hNotN
        | cons a t =>
          rw [show ("/document/d/".data ++ [d] : List Char) =
            '/' :: ("document/d/".data ++ [d]) from rfl] at hn2p
          rw [List.cons_prefix_cons] at hn2p
          obtain ⟨rfl, -⟩ := hn2p
          have hmemN : ('/' : Char) ∈ N := by
            rw [hn2]
            exact List.mem_append_right _ (List.mem_cons_self _ _)
          have := hNd _ hmemN
          exact absurd this (by decide)
  rcases infix_append_split hinf with h1 | h23 |
    ⟨w1, w2, hw, hw1ne, hw2ne, hw1s, hw2p⟩
  · by_cases hs : S2 = []
    · rw [if_pos hs] at h1
      exact absurd (h1.subset hslash_mem) (List.not_mem_nil _)
    · rw [if_neg hs] at h1
      have hsl := h1.subset hslash_mem
      rw [List.mem_append, List.mem_singleton] at hsl
      rcases hsl with hsl | hsl
      · have := hS2 _ hsl
        exact absurd this (by decide)
      · exact absurd hsl (by decide)
  · rw [show ('/' :: '/' :: (N ++ (PP ++ '?' :: (Q ++ G))) : List Char) =
      (('/' :: '/' :: N) ++ PP) ++ ('?' :: (Q ++ G)) by
        simp [List.append_assoc]] at h23
    rcases infix_append_split h23 with h3a | h3b |
      ⟨y1, y2, hy, hy1ne, hy2ne, hy1s, hy2p⟩
    · have hc1 : ('/' :: '/' :: N) ++ PP <+: '/' :: '/' :: (N ++ R2) := by
        rw [show (('/' :: '/' :: N) ++ PP : List Char) =
          '/' :: '/' :: (N ++ PP) by simp]
        rw [List.cons_prefix_cons]
        refine ⟨rfl, ?_⟩
        rw [List.cons_prefix_cons]
        exact ⟨rfl, (List.prefix_append_right_inj N).mpr hPP⟩
      exact hmu2 (h3a.trans hc1.isInfix) hchunk.isInfix
    · rw [List.infix_cons_iff] at h3b
      rcases h3b with hp | h3b
      · rw [show (docsLit ++ [d] : List Char) =
          'h' :: ("ttps://docs.google.com/document/d/".data ++ [d]) from rfl] at hp
        rw [List.cons_prefix_cons] at hp
        exact absurd hp.1 (by decide)
      · rcases infix_append_split h3b with hq1 | hg1 |
          ⟨z1, z2, hz, hz1ne, hz2ne, hz1s, hz2p⟩
        · exact hQc ':' (hq1.subset hcol_mem) rfl
        · rcases hG with rfl | ⟨f, rfl, hf⟩
          · exact absurd (hg1.subset hslash_mem) (List.not_mem_nil _)
          · rw [List.infix_cons_iff] at hg1
            rcases hg1 with hp2 | hg2
            · rw [show (docsLit ++ [d] : List Char) =
                'h' :: ("ttps://docs.google.com/document/d/".data ++ [d])
                  from rfl] at hp2
              rw [List.cons_prefix_cons] at hp2
              exact absurd hp2.1 (by decide)
            · have hR2u : R2 <:+ u0 := by
                refine List.IsSuffix.trans ?_ hchunk
                exact ⟨'/' :: '/' :: N, by simp⟩
              exact hmu2 hg2 (hf.trans hR2u).isInfix
        · rcases hG with rfl | ⟨f, rfl, hf⟩
          · rw [List.prefix_nil] at hz2p
            exact hz2ne hz2p
          · cases z2 with
            | nil => exact hz2ne rfl
            | cons b t =>
              rw [List.cons_prefix_cons] at hz2p
              obtain ⟨rfl, -⟩ := hz2p
              refine hh_not ?_
              rw [hz]
              exact List.mem_append_right _ (List.mem_cons_self _ _)
    · cases y2 with
      | nil => exact hy2ne rfl
      | cons b t =>
        rw [List.cons_prefix_cons] at hy2p
        obtain ⟨rfl, -⟩ := hy2p
        refine hq_not ?_
        rw [hy]
        exact List.mem_append_right _ (List.mem_cons_self _ _)
  · by_cases hs : S2 = []
    · rw [if_pos hs] at hw1s
      exact hw1ne (List.suffix_nil.mp hw1s)
    · rw [if_neg hs] at hw1s
      rcases suffix_concat_split hw1s with rfl | ⟨w0, hw10, hw0⟩
      · exact hw1ne rfl
      · have hx1 : ∀ ch ∈ w0, (fun c => decide (c ≠ ':')) ch = true := by
          intro ch hch
          have hsc := hS2 ch (hw0.subset hch)
          simp only [decide_eq_true_eq]
          intro he; rw [he] at hsc; exact absurd hsc (by decide)
        have htd1 := takeWhile_dropWhile_append (· ≠ ':') w0 (':' :: w2) hx1
          (Or.inr ⟨':', w2, rfl, by decide⟩)
        have hdl : docsLit ++ [d] = "https".data ++ ':' ::
            ("//docs.google.com/document/d/".data ++ [d]) := by
          rw [show (docsLit : List Char) = "https".data ++ ':' ::
            "//docs.google.com/document/d/".data by decide]
          simp
        have htd2 := takeWhile_dropWhile_append (· ≠ ':') "https".data
          (':' :: ("//docs.google.com/document/d/".data ++ [d])) (by decide)
          (Or.inr ⟨':', _, rfl, by decide⟩)
        have h1' : w0 ++ ':' :: w2 = "https".data ++ ':' ::
            ("//docs.google.com/document/d/".data ++ [d]) := by
          rw [← hdl, hw, hw10]
          simp
        have hw2eq : w2 = "//docs.google.com/document/d/".data ++ [d] := by
          have e2 := htd1.2
          rw [h1'] at e2
          rw [htd2.2] at e2
          simp only [List.cons.injEq, true_and] at e2
          exact e2.symm
        rw [hw2eq] at hw2p
        rw [show ("//docs.google.com/document/d/".data ++ [d] : List Char)
          = '/' :: '/' :: ("docs.google.com/document/d/".data ++ [d])
            from rfl] at hw2p
        rw [List.cons_prefix_cons] at hw2p
        obtain ⟨-, hw2p⟩ := hw2p
        rw [List.cons_prefix_cons] at hw2p
        obtain ⟨-, hw2p⟩ := hw2p
        exact hNcase hw2p

/-- Idempotence of _normalize_special_urls on the notion branch, for
URLs free of WHATWG-unsafe bytes. -/
theorem normalize_notion_idem (u : String)
    (hsafe : ∀ ch ∈ u.data, unsafeUrlByte ch = false)
    (hds : docsSearch u.data = Option.none)
    (hgate : listContainsSub "notion.so".data (pyUrlparse u).netloc = true)
    (hpvs : listContainsSub "pvs=".data (pyUrlparse u).query = false) :
    (_normalize_special_urls (_normalize_special_urls u).1).1 =
      (_normalize_special_urls u).1 := by
  have hne : (pyUrlparse u).netloc ≠ [] := by
    intro h0
    rw [h0] at hgate
    exact absurd hgate (by decide)
  obtain ⟨S, R2, hsch, hSprop, hu3, hppR2, hNd, hPPshape, hPPnq, hfragprop⟩ :=
    pyUrlparse_decomp u hne
  have hfid : u.data.filter (fun c => !unsafeUrlByte c) = u.data := by
    refine List.filter_eq_self.mpr ?_
    intro a ha
    rw [hsafe a ha]
    rfl
  rw [hfid] at hu3
  -- the reassembled URL
  have hQne : pyUrlencode (parseQsl (pyUrlparse u).query ++ [("pvs", "4")]) ≠ [] :=
    urlencode_ne_nil _
  have hveq := pyUrlunparse_eq
    { pyUrlparse u with
        query := pyUrlencode (parseQsl (pyUrlparse u).query ++ [("pvs", "4")]) }
    hne hQne hPPshape
  dsimp only at hveq
  have h1 : _normalize_special_urls u =
      (⟨pyUrlunparse { pyUrlparse u with
          query := pyUrlencode (parseQsl (pyUrlparse u).query ++ [("pvs", "4")]) }⟩,
        [("normalizer", PyVal.str "notion-reader-mode")]) := by
    unfold _normalize_special_urls
    rw [hds]
    dsimp only
    rw [hgate, hpvs]
    rw [if_pos (by decide)]
  -- scheme facts
  have hS2all : ∀ ch ∈ (pyUrlparse u).scheme, schemeChar ch = true := by
    intro ch hch
    rw [hsch] at hch
    rw [List.mem_map] at hch
    obtain ⟨c, hc, rfl⟩ := hch
    rcases hSprop with rfl | ⟨hall, -⟩
    · exact absurd hc (List.not_mem_nil _)
    · exact toLower_schemeChar (List.all_eq_true.mp hall c hc)
  have hSmem : ∀ ch ∈ (pyUrlparse u).scheme, unsafeUrlByte ch = false := by
    intro ch hch
    rw [hsch] at hch
    rw [List.mem_map] at hch
    obtain ⟨c, hc, rfl⟩ := hch
    have hcu : c ∈ u.data := by
      rw [hu3]
      exact List.mem_append_left _ (List.mem_append_left _ hc)
    exact toLower_safe (hsafe c hcu)
  have hNmem : ∀ ch ∈ (pyUrlparse u).netloc, ch ∈ u.data := by
    intro ch hch
    rw [hu3]
    exact List.mem_append_right _ (List.mem_cons_of_mem '/'
      (List.mem_cons_of_mem '/' (List.mem_append_left R2 hch)))
  have hR2mem : ∀ ch ∈ R2, ch ∈ u.data := by
    intro ch hch
    rw [hu3]
    exact List.mem_append_right _ (List.mem_cons_of_mem '/'
      (List.mem_cons_of_mem '/' (List.mem_append_right _ hch)))
  have hSshape : (pyUrlparse u).scheme = [] ∨
      ((pyUrlparse u).scheme.all schemeChar = true ∧
        ∃ c0 s2, (pyUrlparse u).scheme = c0 :: s2 ∧ c0.isAlpha = true) := by
    rcases hSprop with rfl | ⟨hall, c0, s2, hcons, halpha⟩
    · left
      rw [hsch]
      rfl
    · right
      refine ⟨?_, c0.toLower, s2.map Char.toLower, ?_, toLower_alpha halpha⟩
      · rw [List.all_eq_true]
        exact hS2all
      · rw [hsch, hcons]
        rfl
  have hGshape : (if (pyUrlparse u).fragment = [] then []
      else '#' :: (pyUrlparse u).fragment) = [] ∨
      ∃ f, (if (pyUrlparse u).fragment = [] then []
        else '#' :: (pyUrlparse u).fragment) = '#' :: f ∧ f <:+ R2 := by
    by_cases hf : (pyUrlparse u).fragment = []
    · left; rw [if_pos hf]
    · right
      refine ⟨(pyUrlparse u).fragment, by rw [if_neg hf], ?_⟩
      rcases hfragprop with h | h
      · exact absurd h hf
      · exact h
  have hchunk : ('/' :: '/' :: ((pyUrlparse u).netloc ++ R2)) <:+ u.data :=
    ⟨S ++ (if S = [] then [] else [':']), by rw [hu3]⟩
  -- no docs match in the reassembled URL
  have hds2 : docsSearch ((if (pyUrlparse u).scheme = [] then []
      else (pyUrlparse u).scheme ++ [':']) ++ '/' :: '/' ::
        ((pyUrlparse u).netloc ++ ((pyUrlparse u).pathParams ++ '?' ::
          (pyUrlencode (parseQsl (pyUrlparse u).query ++ [("pvs", "4")]) ++
            (if (pyUrlparse u).fragment = [] then []
              else '#' :: (pyUrlparse u).fragment))))) = Option.none := by
    rw [docsSearch_none_iff]
    refine no_new_match u.data (pyUrlparse u).scheme (pyUrlparse u).netloc
      (pyUrlparse u).pathParams _ _ R2 hS2all hchunk
      ((docsSearch_none_iff u.data).mp hds) hgate hNd hppR2 ?_ ?_
    · intro ch hch
      exact (urlencode_qOk _ ch hch).1
    · rcases hGshape with h | ⟨f, hf, hfs⟩
      · exact Or.inl h
      · exact Or.inr ⟨f, hf, hfs⟩
  -- the reparsed query keeps the pvs marker
  have hqv := reparse_query (pyUrlparse u).scheme (pyUrlparse u).netloc
    (pyUrlparse u).pathParams
    (pyUrlencode (parseQsl (pyUrlparse u).query ++ [("pvs", "4")]))
    (if (pyUrlparse u).fragment = [] then []
      else '#' :: (pyUrlparse u).fragment)
    hSshape hNd hPPshape hPPnq
    (fun ch hch => (urlencode_qOk _ ch hch).2.2.1)
    (by
      rcases hGshape with h | ⟨f, hf, -⟩
      · exact Or.inl h
      · exact Or.inr ⟨f, hf⟩)
    (by
      intro ch hch
      rw [List.mem_append] at hch
      rcases hch with hch | hch
      · by_cases hs0 : (pyUrlparse u).scheme = []
        · rw [if_pos hs0] at hch
          exact absurd hch (List.not_mem_nil _)
        · rw [if_neg hs0] at hch
          rw [List.mem_append, List.mem_singleton] at hch
          rcases hch with hch | rfl
          · exact hSmem ch hch
          · decide
      · rw [List.mem_cons, List.mem_cons, List.mem_append] at hch
        rcases hch with rfl | rfl | hch | hch
        · decide
        · decide
        · exact hsafe ch (hNmem ch hch)
        · rw [List.mem_append, List.mem_cons] at hch
          rcases hch with hch | rfl | hch
          · have hsub : (pyUrlparse u).pathParams ⊆ R2 := hppR2.subset
            exact hsafe ch (hR2mem ch (hsub hch))
          · decide
          · rw [List.mem_append] at hch
            rcases hch with hch | hch
            · exact (urlencode_qOk _ ch hch).2.2.2
            · by_cases hf0 : (pyUrlparse u).fragment = []
              · rw [if_pos hf0] at hch
                exact absurd hch (List.not_mem_nil _)
              · rw [if_neg hf0] at hch
                rw [List.mem_cons] at hch
                rcases hch with rfl | hch
                · decide
                · rcases hfragprop with h | h
                  · exact absurd h hf0
                  · exact hsafe ch (hR2mem ch (h.subset hch)))
  rw [h1]
  dsimp only
  rw [hveq]
  have h2 : _normalize_special_urls ⟨(if (pyUrlparse u).scheme = [] then []
      else (pyUrlparse u).scheme ++ [':']) ++ '/' :: '/' ::
        ((pyUrlparse u).netloc ++ ((pyUrlparse u).pathParams ++ '?' ::
          (pyUrlencode (parseQsl (pyUrlparse u).query ++ [("pvs", "4")]) ++
            (if (pyUrlparse u).fragment = [] then []
              else '#' :: (pyUrlparse u).fragment))))⟩ =
      (⟨(if (pyUrlparse u).scheme = [] then []
        else (pyUrlparse u).scheme ++ [':']) ++ '/' :: '/' ::
          ((pyUrlparse u).netloc ++ ((pyUrlparse u).pathParams ++ '?' ::
            (pyUrlencode (parseQsl (pyUrlparse u).query ++ [("pvs", "4")]) ++
              (if (pyUrlparse u).fragment = [] then []
                else '#' :: (pyUrlparse u).fragment))))⟩, []) := by
    unfold _normalize_special_urls
    rw [show (String.mk ((if (pyUrlparse u).scheme = [] then []
      else (pyUrlparse u).scheme ++ [':']) ++ '/' :: '/' ::
        ((pyUrlparse u).netloc ++ ((pyUrlparse u).pathParams ++ '?' ::
          (pyUrlencode (parseQsl (pyUrlparse u).query ++ [("pvs", "4")]) ++
            (if (pyUrlparse u).fragment = [] then []
              else '#' :: (pyUrlparse u).fragment)))))).data =
      (if (pyUrlparse u).scheme = [] then []
        else (pyUrlparse u).scheme ++ [':']) ++ '/' :: '/' ::
          ((pyUrlparse u).netloc ++ ((pyUrlparse u).pathParams ++ '?' ::
            (pyUrlencode (parseQsl (pyUrlparse u).query ++ [("pvs", "4")]) ++
              (if (pyUrlparse u).fragment = [] then []
                else '#' :: (pyUrlparse u).fragment)))) from rfl]
    rw [hds2]
    dsimp only
    rw [hqv, pvs_marker]
    rw [if_neg (by simp)]
  rw [h2]

/-- C6 (corrected): _normalize_special_urls is idempotent on every URL
string that contains no tab, carriage-return or line-feed byte: applying
it to the URL component of its own output returns that URL unchanged.
(For URLs containing such bytes idempotence fails, because urlparse
strips them before parsing while the Google-Docs regex sees the raw
string; see the counterexample.) -/
theorem C6_normalization_idempotent (u : String)
    (hsafe : ∀ ch ∈ u.data, unsafeUrlByte ch = false) :
    (_normalize_special_urls (_normalize_special_urls u).1).1 =
      (_normalize_special_urls u).1 := by
  cases hds : docsSearch u.data with
  | some run => exact normalize_docs_idem u run hds
  | none =>
    cases hc : (listContainsSub "notion.so".data (pyUrlparse u).netloc &&
        !listContainsSub "pvs=".data (pyUrlparse u).query) with
    | false =>
      have h1 : _normalize_special_urls u = (u, []) := by
        unfold _normalize_special_urls
        rw [hds]
        dsimp only
        rw [hc]
        rw [if_neg (by simp)]
      rw [h1]
      dsimp only
      rw [h1]
    | true =>
      have hab := hc
      rw [Bool.and_eq_true] at hab
      have hgate : listContainsSub "notion.so".data (pyUrlparse u).netloc
          = true := hab.1
      have hpvs : listContainsSub "pvs=".data (pyUrlparse u).query = false := by
        have h2 := hab.2
        rwa [Bool.not_eq_true'] at h2
      exact normalize_notion_idem u hsafe hds hgate hpvs

theorem C6_witness :
    (∀ ch ∈ ("https://www.notion.so/My-Page-abc?x=1" : String).data,
      unsafeUrlByte ch = false) ∧
    (_normalize_special_urls
      (_normalize_special_urls "https://www.notion.so/My-Page-abc?x=1").1).1 =
      (_normalize_special_urls "https://www.notion.so/My-Page-abc?x=1").1 :=
  ⟨by decide, C6_normalization_idempotent _ (by decide)⟩

/-- Counterexample to the literal claim: a URL containing a tab is
changed again by a second normalization, because the tab hides the
Google-Docs pattern from the regex but is stripped by urlparse, so the
first pass emits a URL in which the pattern has become visible. -/
theorem C6_counterexample :
    (_normalize_special_urls
        "https://www.notion.so/https:\t//docs.google.com/document/d/abc").1 =
      "https://www.notion.so/https://docs.google.com/document/d/abc?pvs=4" ∧
    (_normalize_special_urls
        (_normalize_special_urls
          "https://www.notion.so/https:\t//docs.google.com/document/d/abc").1).1 =
      "https://docs.google.com/document/d/abc/export?format=html" ∧
    (_normalize_special_urls
        (_normalize_special_urls
          "https://www.notion.so/https:\t//docs.google.com/document/d/abc").1).1 ≠
      (_normalize_special_urls
        "https://www.notion.so/https:\t//docs.google.com/document/d/abc").1 :=
  ⟨by decide, by decide, by decide⟩

end UrlReader
